import Mathlib

/-!
Verification development for the my-gzip decompressor (RFC 1952 / RFC 1951).

Shallow embedding of the Rust sources:
  src/reader.rs       (bit-oriented Reader)          -> namespace Rdr
  src/ring_buffer.rs  (RingBuffer)                   -> namespace RB
  src/writer.rs       (Writer facade)                -> namespace Wtr
  src/tree.rs         (BinaryTrie / Node / Cursor)   -> namespace Node
  src/decompress/huffman.rs, src/decompress/raw.rs,
  src/decompress.rs   (block decoders, gzip framing) -> top level defs

Bytes are modelled as Nat (callers and sources keep them below 256), machine
integers as Nat with explicit masks where Rust would wrap.  Fallible Rust code
returns Except Failure; a Rust panic (assert macro, out-of-bounds index,
unreachable) is Failure.panic, an anyhow error returned through the Result
chain is Failure.err.  Loops whose termination is not structural carry an
explicit fuel argument (structurally decreasing, so that concrete runs reduce
inside the kernel); exhausting it yields the model-only Failure.fuel, which no
theorem below ever equates with a behaviour of the program.
-/

set_option maxHeartbeats 1000000
set_option maxRecDepth 100000

namespace MyGzip

/-- Failure modes of the Rust code: a panicking assertion or index (process
abort), an error value returned to the caller through the Result chain, or
the model-only fuel exhaustion marker. -/
inductive Failure where
  | panic (msg : String)
  | err (msg : String)
  | fuel
deriving DecidableEq, Repr

instance {ε α : Type} [DecidableEq ε] [DecidableEq α] : DecidableEq (Except ε α) :=
  fun a b =>
    match a, b with
    | .ok x, .ok y => decidable_of_iff (x = y) (by simp)
    | .error e, .error f => decidable_of_iff (e = f) (by simp)
    | .ok _, .error _ => isFalse (by simp)
    | .error _, .ok _ => isFalse (by simp)

/-! ## Reader (src/reader.rs)

State of `Reader<R>`: the bytes not yet pulled from the underlying source,
the `current` byte register and the bit index `pos`.  The underlying reader
is a byte list: a read returns as many of the requested bytes as remain
(never a transient error, so the Interrupted retry loops are invisible). -/

structure Rdr where
  src : List Nat
  current : Nat
  pos : Nat
deriving DecidableEq, Repr

/-- Reader::new — register zero, index 0, nothing read from the source. -/
def Rdr.new (l : List Nat) : Rdr := ⟨l, 0, 0⟩

/-- Reader::read_next_byte — pull one byte into the register (pos := 0), or
flag exhaustion with pos := 8.  The Bool reports whether a byte was read
(the Some/None of the Rust return value). -/
def Rdr.readNextByte (s : Rdr) : Rdr × Bool :=
  match s.src with
  | [] => ({ s with pos := 8 }, false)
  | b :: rest => (⟨rest, b, 0⟩, true)

/-- Reader::next_bit — LSB-first bit of the register; after the eighth bit
the next byte is prefetched. -/
def Rdr.nextBit (s : Rdr) : Except Failure (Bool × Rdr) :=
  if s.pos ≥ 8 then .error (.err "finished")
  else
    let bit := decide (0 < s.current &&& (1 <<< s.pos))
    let s1 : Rdr := { s with pos := s.pos + 1 }
    .ok (bit, if s1.pos ≥ 8 then (s1.readNextByte).1 else s1)

/-- Reader::ensure_byte_boundary. -/
def Rdr.ensureByteBoundary (s : Rdr) : Except Failure Rdr :=
  if s.pos = 0 then .ok s
  else
    match s.readNextByte with
    | (s1, true) => .ok s1
    | (_, false) => .error (.err "no more bytes")

/-- Reader::next_byte — returns the register after realigning, then
prefetches (end-of-source during the prefetch is not an error here). -/
def Rdr.nextByte (s : Rdr) : Except Failure (Nat × Rdr) :=
  match s.ensureByteBoundary with
  | .error e => .error e
  | .ok s1 => .ok (s1.current, (s1.readNextByte).1)

/-- The Read impl for Reader — fills up to n bytes: when pos = 0 the first
byte delivered is the register, the rest come straight from the source;
afterwards one byte is prefetched. -/
def Rdr.readImpl (s : Rdr) (n : Nat) : List Nat × Rdr :=
  if n = 0 then ([], s)
  else if s.pos = 0 then
    let bytes := s.current :: s.src.take (n - 1)
    (bytes, (Rdr.readNextByte ⟨s.src.drop (n - 1), s.current, s.pos⟩).1)
  else
    (s.src.take n, (Rdr.readNextByte ⟨s.src.drop n, s.current, s.pos⟩).1)

/-- std read_exact via the Read impl above: repeated reads until the buffer
is full; a zero-length read is an unexpected-eof error.  fuel bounds the
number of read calls (n suffices: each successful call delivers a byte). -/
def Rdr.readExact : Nat → Rdr → Nat → Except Failure (List Nat × Rdr)
  | _, s, 0 => .ok ([], s)
  | 0, _, _ + 1 => .error .fuel
  | fuel + 1, s, n + 1 =>
    let r := s.readImpl (n + 1)
    if r.1.length = 0 then .error (.err "failed to fill whole buffer")
    else
      match Rdr.readExact fuel r.2 (n + 1 - r.1.length) with
      | .ok (bs, s2) => .ok (r.1 ++ bs, s2)
      | .error e => .error e

/-- The loop of Reader::copy_to — chunks of at most 8192 bytes read straight
from the underlying source (the byte register is NOT consulted), stopping
early when the source is exhausted.  Returns the bytes delivered.  The Rust
loop writes each chunk buffer whole even when the read came up short; the
bytes past the ones read are stale scratch and reach only sinks or
exact-size slices in this program, so the model returns the read bytes. -/
def Rdr.copyLoop : Nat → Rdr → Nat → List Nat × Rdr
  | _, s, 0 => ([], s)
  | 0, s, _ + 1 => ([], s)
  | fuel + 1, s, remain + 1 =>
    let chunk := min (remain + 1) 8192
    let got := s.src.take chunk
    if got.length = 0 then ([], s)
    else
      let s1 : Rdr := ⟨s.src.drop chunk, s.current, s.pos⟩
      let r := Rdr.copyLoop fuel s1 (remain + 1 - got.length)
      (got ++ r.1, r.2)

/-- Reader::copy_to — realign, run the chunk loop, then prefetch one byte.
Returns (bytes delivered, their count = length - remain, reader). -/
def Rdr.copyTo (s : Rdr) (length : Nat) : Except Failure (List Nat × Nat × Rdr) :=
  match s.ensureByteBoundary with
  | .error e => .error e
  | .ok s1 =>
    let r := Rdr.copyLoop length s1 length
    .ok (r.1, r.1.length, ((r.2).readNextByte).1)

/-- Reader::skip — ensure_byte_boundary then copy_to into a sink. -/
def Rdr.skip (s : Rdr) (length : Nat) : Except Failure (Nat × Rdr) :=
  match s.ensureByteBoundary with
  | .error e => .error e
  | .ok s1 =>
    match s1.copyTo length with
    | .error e => .error e
    | .ok (_, n, s2) => .ok (n, s2)

/-! ## RingBuffer (src/ring_buffer.rs)

The Vec is `buf` (its length grows up to the fixed capacity `cap`), the
write cursor is `next`. -/

structure RB where
  buf : List Nat
  next : Nat
  cap : Nat
deriving DecidableEq, Repr

/-- RingBuffer::is_wrapped — the Vec has reached the capacity. -/
def RB.isWrapped (rb : RB) : Bool := rb.buf.length == rb.cap

/-- RingBuffer::len. -/
def RB.len (rb : RB) : Nat := if rb.isWrapped then rb.cap else rb.next

/-- RingBuffer::push. -/
def RB.push (rb : RB) (v : Nat) : RB :=
  let buf := if rb.isWrapped then rb.buf.set rb.next v else rb.buf ++ [v]
  let n := rb.next + 1
  ⟨buf, if n = rb.cap then 0 else n, rb.cap⟩

/-- The first loop of copy_within: for i in 0..k the Vec pushes its own
element at index base + i (base is start - cap, an absolute index). -/
def RB.pushLoop (buf : List Nat) (base : Nat) : Nat → List Nat
  | 0 => buf
  | k + 1 => RB.pushLoop (buf ++ [buf.getD base 0]) (base + 1) k

/-- The second loop of copy_within: k in-place writes
buf[(next + i) % cap] := buf[(start + i) % cap], i counting up from i0. -/
def RB.setLoop (buf : List Nat) (i0 nxt start cap : Nat) : Nat → List Nat
  | 0 => buf
  | k + 1 =>
    RB.setLoop (buf.set ((nxt + i0) % cap) (buf.getD ((start + i0) % cap) 0))
      (i0 + 1) nxt start cap k

/-- RingBuffer::copy_within — three asserts (panics), the push phase while
the Vec is not full, then the in-place phase, then the cursor advance; the
returned pair of slices is read off the final buffer exactly as the Rust
indexing does. -/
def RB.copyWithin (rb : RB) (distance length : Nat) :
    Except Failure (RB × List Nat × List Nat) :=
  if distance = 0 then .error (.panic "distance must not be 0")
  else if ¬ (rb.isWrapped = true ∨ distance ≤ rb.next) then
    .error (.panic "distance too long for current buffer")
  else if ¬ length ≤ rb.cap then
    .error (.panic "length longer than capacity")
  else
    let cap := rb.cap
    let start := rb.next + cap - distance
    let etbp := min length (cap - rb.len)
    let buf1 := RB.pushLoop rb.buf (start - cap) etbp
    let buf2 := RB.setLoop buf1 etbp rb.next start cap (length - etbp)
    let oldNext := rb.next
    let next2 := (rb.next + length) % cap
    let slices :=
      if next2 ≤ oldNext then (buf2.drop oldNext, buf2.take next2)
      else ((buf2.drop oldNext).take (next2 - oldNext), ([] : List Nat))
    .ok (⟨buf2, next2, cap⟩, slices)

/-- Write the bytes vs over positions i, i+1, ... of l (in-bounds callers
only; List.set ignores the rest like the model never reaches). -/
def overwriteAt (l : List Nat) (i : Nat) : List Nat → List Nat
  | [] => l
  | v :: vs => overwriteAt (l.set i v) (i + 1) vs

/-- The wrapped phase of RingBuffer::copy_from: in-place reads into
first = buf[next..] and then second = buf[..next], mirroring the
split_at_mut branch. -/
def RB.copyFromRest (rb : RB) (rdr : Rdr) (length : Nat) :
    Except Failure (RB × Rdr) :=
  if length = 0 then .ok (rb, rdr)
  else
    let firstLen := rb.buf.length - rb.next
    if length ≤ firstLen then
      match rdr.readExact length length with
      | .error e => .error e
      | .ok (bytes, rdr1) =>
        .ok (⟨overwriteAt rb.buf rb.next bytes, (rb.next + length) % rb.cap, rb.cap⟩, rdr1)
    else
      match rdr.readExact firstLen firstLen with
      | .error e => .error e
      | .ok (bytes1, rdr1) =>
        match rdr1.readExact (length - firstLen) (length - firstLen) with
        | .error e => .error e
        | .ok (bytes2, rdr2) =>
          .ok (⟨overwriteAt (overwriteAt rb.buf rb.next bytes1) 0 bytes2,
                (rb.next + length) % rb.cap, rb.cap⟩, rdr2)

/-- RingBuffer::copy_from — the capacity assert (panic), the zero-length
early return, the append phase while not wrapped, then the wrapped phase;
returns the two slices just written. -/
def RB.copyFrom (rb : RB) (rdr : Rdr) (length : Nat) :
    Except Failure (RB × Rdr × List Nat × List Nat) :=
  if ¬ length ≤ rb.cap then
    .error (.panic "length longer than capacity")
  else if length = 0 then .ok (rb, rdr, [], [])
  else
    let oldNext := rb.next
    let step :=
      if ¬ rb.isWrapped then
        let etbp := min length (rb.cap - rb.next)
        match rdr.readExact etbp etbp with
        | .error e => .error e
        | .ok (bytes, rdr1) =>
          RB.copyFromRest ⟨rb.buf ++ bytes, (rb.next + etbp) % rb.cap, rb.cap⟩
            rdr1 (length - etbp)
      else RB.copyFromRest rb rdr length
    match step with
    | .error e => .error e
    | .ok (rb2, rdr2) =>
      let slices :=
        if rb2.next ≤ oldNext then (rb2.buf.drop oldNext, rb2.buf.take rb2.next)
        else ((rb2.buf.drop oldNext).take (rb2.next - oldNext), ([] : List Nat))
      .ok (rb2, rdr2, slices)

/-! ## Writer (src/writer.rs) — the ring buffer plus the downstream sink.
The sink is a byte list, so its write_all never fails. -/

structure Wtr where
  out : List Nat
  ring : RB
deriving DecidableEq, Repr

/-- Writer::new. -/
def Wtr.new (bufSize : Nat) : Wtr := ⟨[], ⟨[], 0, bufSize⟩⟩

/-- Writer::push. -/
def Wtr.push (w : Wtr) (v : Nat) : Wtr := ⟨w.out ++ [v], w.ring.push v⟩

/-- Writer::copy_within — forwards to the ring buffer and writes both
returned slices downstream; returns their total length. -/
def Wtr.copyWithin (w : Wtr) (distance length : Nat) :
    Except Failure (Wtr × Nat) :=
  match w.ring.copyWithin distance length with
  | .error e => .error e
  | .ok (rb, s1, s2) => .ok (⟨w.out ++ s1 ++ s2, rb⟩, s1.length + s2.length)

/-- Writer::copy_from. -/
def Wtr.copyFrom (w : Wtr) (rdr : Rdr) (length : Nat) :
    Except Failure (Wtr × Rdr) :=
  match w.ring.copyFrom rdr length with
  | .error e => .error e
  | .ok (rb, rdr1, s1, s2) => .ok (⟨w.out ++ s1 ++ s2, rb⟩, rdr1)

/-! ## Reference model for back-reference copies (spec section 4.2)

The byte-by-byte reference: length individual pushes, each reading the byte
at relative offset -distance from the write cursor at that moment. -/

/-- One reference step: push the byte distance positions before the cursor. -/
def RB.pushBack (rb : RB) (distance : Nat) : RB :=
  rb.push (rb.buf.getD ((rb.next + rb.cap - distance) % rb.cap) 0)

/-- The naive byte-by-byte back-reference copy of the specification. -/
def RB.naiveCopyWithin (rb : RB) (distance : Nat) : Nat → RB
  | 0 => rb
  | k + 1 => RB.naiveCopyWithin (rb.pushBack distance) distance k

/-- Well-formed ring buffer: the Vec never exceeds the capacity, the cursor
stays below it, and while the Vec is still growing the cursor sits at its
end (the push/copy operations preserve all three). -/
def RB.WF (rb : RB) : Prop :=
  rb.buf.length ≤ rb.cap ∧ rb.next < rb.cap ∧
    (rb.buf.length < rb.cap → rb.next = rb.buf.length)

/-! ## Binary trie (src/tree.rs)

A Node owns an optional value (Some on leaves) and two optional children. -/

inductive Node where
  | mk (value : Option Nat) (zero : Option Node) (one : Option Node)

/-- The value stored at a node. -/
def Node.value : Node → Option Nat
  | .mk v _ _ => v

/-- The child selected by a bit (one for true, zero for false). -/
def Node.child : Node → Bool → Option Node
  | .mk _ z o, b => if b then o else z

/-- Node::is_leaf. -/
def Node.isLeaf (n : Node) : Bool := n.value.isSome

/-- Replace the child selected by a bit (follow_or_add / Node::add write). -/
def Node.setChild : Node → Bool → Node → Node
  | .mk v z o, b, c => if b then .mk v z (some c) else .mk v (some c) o

/-- get_bit from src/tree.rs: bit i of n. -/
def get_bit (n i : Nat) : Bool := decide (0 < (1 <<< i) &&& n)

/-- The bit sequence BinaryTrie::add walks for TreeKey(code, len): bit
indices len-1 down to 0 (MSB first). -/
def natBits (code : Nat) : Nat → List Bool
  | 0 => []
  | w + 1 => get_bit code w :: natBits code w

/-- BinaryTrie::add along its bit path: each inner step bails on a leaf and
otherwise follow_or_adds an empty inner node; the last step additionally
bails when the final child slot is already occupied. -/
def Node.addPath : Node → List Bool → Nat → Except Failure Node
  | _, [], _ => .error (.err "key bit length must be positive")
  | n, [b], v =>
    if n.isLeaf then .error (.err "cannot add descendant node to leaf node")
    else
      match n.child b with
      | some _ => .error (.err "cannot add leaf node which already exists")
      | none => .ok (n.setChild b (Node.mk (some v) none none))
  | n, b :: b2 :: bs, v =>
    if n.isLeaf then .error (.err "cannot add descendant node to leaf node")
    else
      match Node.addPath ((n.child b).getD (Node.mk none none none)) (b2 :: bs) v with
      | .ok c => .ok (n.setChild b c)
      | .error e => .error e

/-- BinaryTrie::add with a numeric TreeKey(code, len): matched from MSB to
LSB; an empty key (len = 0) is the ensure error of the source. -/
def trieAdd (t : Node) (code len v : Nat) : Except Failure Node :=
  t.addPath (natBits code len) v

/-- Node::follow / Cursor::follow for one bit: descending into a missing
child is an error (worded by whether the node is a leaf). -/
def Node.followB (n : Node) (b : Bool) : Except Failure Node :=
  match n.child b with
  | none =>
    if n.isLeaf then .error (.err "attempted to follow from leaf")
    else .error (.err "attempted to follow from non-leaf node without child")
  | some c => .ok c

/-- Cursor descent over a whole bit sequence: the node reached, or the first
follow error on the way. -/
def Node.runPath : Node → List Bool → Except Failure Node
  | n, [] => .ok n
  | n, b :: bs =>
    match n.followB b with
    | .error e => .error e
    | .ok c => Node.runPath c bs

/-- read_next_code from src/decompress/huffman.rs: one bit per step, cursor
follow, stop at the first leaf.  Structural recursion into the child keeps
the model executable by kernel reduction. -/
def readNextCode : Rdr → Node → Except Failure (Nat × Rdr)
  | s, Node.mk v z o =>
    match s.nextBit with
    | .error e => .error e
    | .ok (bit, s1) =>
      match bit, z, o with
      | false, none, _ =>
        .error (if v.isSome then .err "attempted to follow from leaf"
                else .err "attempted to follow from non-leaf node without child")
      | true, _, none =>
        .error (if v.isSome then .err "attempted to follow from leaf"
                else .err "attempted to follow from non-leaf node without child")
      | false, some c, _ =>
        match c.value with
        | some w => .ok (w, s1)
        | none => readNextCode s1 c
      | true, _, some c =>
        match c.value with
        | some w => .ok (w, s1)
        | none => readNextCode s1 c

/-! ## build_tree (src/decompress/huffman.rs lines 25-72) -/

/-- One step of the counts histogram: counts[l] += 1.  The Rust arrays have
16 slots, so a length of 16 or more is an out-of-bounds panic. -/
def bumpCount (cs : List Nat) (l : Nat) : Except Failure (List Nat) :=
  if l < 16 then .ok (cs.set l (cs.getD l 0 + 1))
  else .error (.panic "index out of bounds")

/-- The counts loop of build_tree. -/
def buildCounts : List Nat → List Nat → Except Failure (List Nat)
  | cs, [] => .ok cs
  | cs, l :: ls =>
    match bumpCount cs l with
    | .error e => .error e
    | .ok cs1 => buildCounts cs1 ls

/-- One step of the next_code recurrence:
next_code[bits] = (next_code[bits-1] + counts[bits-1]) shifted left once. -/
def ncStep (counts nc : List Nat) (bits : Nat) : List Nat :=
  nc.set bits ((nc.getD (bits - 1) 0 + counts.getD (bits - 1) 0) * 2)

/-- The next_code array after the loop for bits in 2..=maxBits over a
16-slot zero array. -/
def buildNextCode (counts : List Nat) (maxBits : Nat) : List Nat :=
  (List.range' 2 (maxBits - 1)).foldl (ncStep counts) (List.replicate 16 0)

/-- The assignment loop of build_tree over the enumerated lengths: skip
length 0, take the running next_code for that length, bail when the code
no longer fits in its declared bit count, increment, insert into the trie. -/
def buildFold : List (Nat × Nat) → List Nat → Node → Except Failure Node
  | [], _, t => .ok t
  | (n, len) :: rest, nc, t =>
    if len = 0 then buildFold rest nc t
    else
      let code := nc.getD len 0
      if 2 ^ len ≤ code then .error (.err "code longer than declared bits")
      else
        match trieAdd t code len n with
        | .error e => .error e
        | .ok t1 => buildFold rest (nc.set len (code + 1)) t1

/-- build_tree: empty input is the context error; then counts, next_code
and the assignment fold from an empty root. -/
def buildTree (lengths : List Nat) : Except Failure Node :=
  match lengths.max? with
  | none => .error (.err "cannot build tree from empty slice")
  | some maxBits =>
    match buildCounts (List.replicate 16 0) lengths with
    | .error e => .error e
    | .ok counts =>
      buildFold lengths.enum (buildNextCode counts maxBits) (Node.mk none none none)

/-! ## Huffman payload decoding (src/decompress/huffman.rs) -/

/-- read_number_le: bits are read LSB to MSB into the accumulator. -/
def readNumberLeAux : Rdr → Nat → Nat → Nat → Except Failure (Nat × Rdr)
  | s, acc, _, 0 => .ok (acc, s)
  | s, acc, i, k + 1 =>
    match s.nextBit with
    | .error e => .error e
    | .ok (b, s1) => readNumberLeAux s1 (if b then acc ||| (1 <<< i) else acc) (i + 1) k

/-- read_number_le from src/decompress/huffman.rs. -/
def readNumberLe (s : Rdr) (bits : Nat) : Except Failure (Nat × Rdr) :=
  readNumberLeAux s 0 0 bits

/-- LENGTH_INFO: (extra bits, base length) for symbols 257..285. -/
def LENGTH_INFO : List (Nat × Nat) :=
  [(0, 3), (0, 4), (0, 5), (0, 6), (0, 7), (0, 8), (0, 9), (0, 10),
   (1, 11), (1, 13), (1, 15), (1, 17),
   (2, 19), (2, 23), (2, 27), (2, 31),
   (3, 35), (3, 43), (3, 51), (3, 59),
   (4, 67), (4, 83), (4, 99), (4, 115),
   (5, 131), (5, 163), (5, 195), (5, 227),
   (0, 258)]

/-- DIST_INFO: (extra bits, base distance) for distance symbols 0..29. -/
def DIST_INFO : List (Nat × Nat) :=
  [(0, 1), (0, 2), (0, 3), (0, 4),
   (1, 5), (1, 7), (2, 9), (2, 13), (3, 17), (3, 25), (4, 33), (4, 49),
   (5, 65), (5, 97), (6, 129), (6, 193), (7, 257), (7, 385),
   (8, 513), (8, 769), (9, 1025), (9, 1537), (10, 2049), (10, 3073),
   (11, 4097), (11, 6145), (12, 8193), (12, 12289), (13, 16385), (13, 24577)]

/-- Rust const-array indexing: out of bounds is a panic. -/
def tableGet (t : List (Nat × Nat)) (i : Nat) : Except Failure (Nat × Nat) :=
  match t.get? i with
  | some p => .ok p
  | none => .error (.panic "index out of bounds")

/-- read_code_lengths: decode count code-length symbols through the
code-length tree; 0..=15 literal (updates prev), 16 repeats prev (2 extra
bits, 3..6 times, error without a prev), 17 and 18 emit zeros (3 extra bits
for 3..10, 7 extra bits for 11..138) and set prev to 0; each repeat is
first checked against the remaining count.  One fuel per loop iteration. -/
def readCodeLengths : Nat → Node → Rdr → List Nat → Option Nat → Nat →
    Except Failure (Rdr × List Nat)
  | _, _, rdr, out, _, 0 => .ok (rdr, out)
  | 0, _, _, _, _, _ + 1 => .error .fuel
  | fuel + 1, tree, rdr, out, prev, remain + 1 =>
    match readNextCode rdr tree with
    | .error e => .error e
    | .ok (c, rdr1) =>
      if c ≤ 15 then
        readCodeLengths fuel tree rdr1 (out ++ [c]) (some c) remain
      else if c = 16 then
        match readNumberLe rdr1 2 with
        | .error e => .error e
        | .ok (v, rdr2) =>
          let rep := v + 3
          if ¬ rep ≤ remain + 1 then .error (.err "repeat too long")
          else
            match prev with
            | some b =>
              readCodeLengths fuel tree rdr2 (out ++ List.replicate rep b) prev
                (remain + 1 - rep)
            | none => .error (.err "no previous value")
      else if c = 17 ∨ c = 18 then
        let lengthBits := if c = 17 then 3 else 7
        let addend := if c = 17 then 3 else 11
        match readNumberLe rdr1 lengthBits with
        | .error e => .error e
        | .ok (v, rdr2) =>
          let rep := v + addend
          if ¬ rep ≤ remain + 1 then .error (.err "repeat too long")
          else
            readCodeLengths fuel tree rdr2 (out ++ List.replicate rep 0) (some 0)
              (remain + 1 - rep)
      else .error (.panic "unreachable")

/-- read_compressed_data: the literal/length loop.  0..=255 emit a literal,
256 ends the block, 257..=285 read a length (LENGTH_INFO and extra bits),
then a distance code, DIST_INFO (an out-of-bounds distance symbol panics)
and its extra bits, then a back-reference through the writer.  One fuel per
loop iteration. -/
def readCompressedData : Nat → Rdr → Wtr → Node → Node → Nat →
    Except Failure (Nat × Rdr × Wtr)
  | 0, _, _, _, _, _ => .error .fuel
  | fuel + 1, rdr, w, litTree, distTree, bytes =>
    match readNextCode rdr litTree with
    | .error e => .error e
    | .ok (c, rdr1) =>
      if c ≤ 255 then
        readCompressedData fuel rdr1 (w.push c) litTree distTree (bytes + 1)
      else if c = 256 then .ok (bytes, rdr1, w)
      else if c ≤ 285 then
        match tableGet LENGTH_INFO (c - 257) with
        | .error e => .error e
        | .ok (lengthBits, lengthAddend) =>
          match readNumberLe rdr1 lengthBits with
          | .error e => .error e
          | .ok (extra, rdr2) =>
            let length := extra + lengthAddend
            match readNextCode rdr2 distTree with
            | .error e => .error e
            | .ok (distCode, rdr3) =>
              match tableGet DIST_INFO distCode with
              | .error e => .error e
              | .ok (distBits, distAddend) =>
                match readNumberLe rdr3 distBits with
                | .error e => .error e
                | .ok (dextra, rdr4) =>
                  match w.copyWithin (dextra + distAddend) length with
                  | .error e => .error e
                  | .ok (w1, len) =>
                    readCompressedData fuel rdr4 w1 litTree distTree (bytes + len)
      else .error (.panic "unreachable")

/-- The permutation of the code-length alphabet. -/
def ALPHABET_ORDER : List Nat :=
  [16, 17, 18, 0, 8, 7, 9, 6, 10, 5, 11, 4, 12, 3, 13, 2, 14, 1, 15]

/-- The scatter loop of decompress_dynamic: for each listed index read a
3-bit value into the length vector. -/
def readClcLengths : Rdr → List Nat → List Nat → Except Failure (List Nat × Rdr)
  | rdr, lengths, [] => .ok (lengths, rdr)
  | rdr, lengths, i :: is =>
    match readNumberLe rdr 3 with
    | .error e => .error e
    | .ok (v, rdr1) => readClcLengths rdr1 (lengths.set i v) is

/-- decompress_dynamic: HLIT, HDIST, HCLEN, the code-length code, the
HLIT + HDIST code lengths, the split at HLIT, the two trees, the payload. -/
def decompressDynamic (fuel : Nat) (rdr : Rdr) (w : Wtr) :
    Except Failure (Nat × Rdr × Wtr) :=
  match readNumberLe rdr 5 with
  | .error e => .error e
  | .ok (v1, rdr1) =>
    let hlit := v1 + 257
    match readNumberLe rdr1 5 with
    | .error e => .error e
    | .ok (v2, rdr2) =>
      let hdist := v2 + 1
      match readNumberLe rdr2 4 with
      | .error e => .error e
      | .ok (v3, rdr3) =>
        let hclen := v3 + 4
        match readClcLengths rdr3 (List.replicate 19 0) (ALPHABET_ORDER.take hclen) with
        | .error e => .error e
        | .ok (clens, rdr4) =>
          match buildTree clens with
          | .error e => .error e
          | .ok codeTree =>
            match readCodeLengths fuel codeTree rdr4 [] none (hlit + hdist) with
            | .error e => .error e
            | .ok (rdr5, codeLengths) =>
              match buildTree (codeLengths.take hlit) with
              | .error e => .error e
              | .ok litTree =>
                match buildTree (codeLengths.drop hlit) with
                | .error e => .error e
                | .ok distTree =>
                  readCompressedData fuel rdr5 w litTree distTree 0

/-- build_lit_lengths: 8 bits for 0..143 and 280..287, 9 for 144..255,
7 for 256..279. -/
def LIT_LENGTHS : List Nat :=
  (List.range 288).map fun i =>
    if 144 ≤ i ∧ i < 256 then 9 else if 256 ≤ i ∧ i < 280 then 7 else 8

/-- DIST_LENGTHS: all 32 slots get 5 bits. -/
def DIST_LENGTHS : List Nat := List.replicate 32 5

/-- decompress_fixed: the two fixed trees (thread-local, unwrap guaranteed
infallible in the source) and the shared payload loop. -/
def decompressFixed (fuel : Nat) (rdr : Rdr) (w : Wtr) :
    Except Failure (Nat × Rdr × Wtr) :=
  match buildTree LIT_LENGTHS, buildTree DIST_LENGTHS with
  | .ok litTree, .ok distTree => readCompressedData fuel rdr w litTree distTree 0
  | _, _ => .error (.panic "failed to build fixed trees")

/-- u16::from_le_bytes. -/
def le16 (a b : Nat) : Nat := a + 256 * b

/-- u32::from_le_bytes. -/
def le32 (a b c d : Nat) : Nat := a + 256 * b + 65536 * c + 16777216 * d

/-- raw::decompress (src/decompress/raw.rs): LEN and NLEN little-endian,
the ones-complement check, then the bulk copy through the window. -/
def rawDecompress (rdr : Rdr) (w : Wtr) : Except Failure (Nat × Rdr × Wtr) :=
  match rdr.nextByte with
  | .error e => .error e
  | .ok (a0, rdr1) =>
    match rdr1.nextByte with
    | .error e => .error e
    | .ok (a1, rdr2) =>
      match rdr2.nextByte with
      | .error e => .error e
      | .ok (b0, rdr3) =>
        match rdr3.nextByte with
        | .error e => .error e
        | .ok (b1, rdr4) =>
          let len := le16 a0 a1
          let nlen := le16 b0 b1
          if ¬ len = nlen ^^^ 65535 then
            .error (.err "inconsistency between LEN and NLEN bytes")
          else
            match w.copyFrom rdr4 len with
            | .error e => .error e
            | .ok (w1, rdr5) => .ok (len, rdr5, w1)

/-- decompress_block (src/decompress.rs lines 13-30): the final-block bit,
two type bits, dispatch; type 11 is the reserved error. -/
def decompressBlock (fuel : Nat) (rdr : Rdr) (w : Wtr) :
    Except Failure (Nat × Bool × Rdr × Wtr) :=
  match rdr.nextBit with
  | .error e => .error e
  | .ok (finalB, rdr1) =>
    match rdr1.nextBit with
    | .error e => .error e
    | .ok (t1, rdr2) =>
      match rdr2.nextBit with
      | .error e => .error e
      | .ok (t2, rdr3) =>
        let run : Except Failure (Nat × Rdr × Wtr) :=
          match t1, t2 with
          | false, false => rawDecompress rdr3 w
          | true, false => decompressFixed fuel rdr3 w
          | false, true => decompressDynamic fuel rdr3 w
          | true, true => .error (.err "block type 11 is reserved")
        match run with
        | .error e => .error e
        | .ok (bytes, rdr4, w1) => .ok (bytes, finalB, rdr4, w1)

/-! ## Gzip frame parsing (src/decompress.rs decompress) -/

/-- The parsed header fields. -/
structure Hdr where
  id1 : Nat
  id2 : Nat
  cm : Nat
  flg : Nat
  mtime : Nat
  xfl : Nat
  os : Nat
  name : Option (List Nat)
  comment : Option (List Nat)
  crc16 : Option Nat
deriving DecidableEq, Repr

/-- GzipFlags::has_crc. -/
def flagHasCrc (f : Nat) : Bool := decide (0 < f &&& 2)

/-- GzipFlags::has_extra. -/
def flagHasExtra (f : Nat) : Bool := decide (0 < f &&& 4)

/-- GzipFlags::has_name. -/
def flagHasName (f : Nat) : Bool := decide (0 < f &&& 8)

/-- GzipFlags::has_comment. -/
def flagHasComment (f : Nat) : Bool := decide (0 < f &&& 16)

/-- The NUL-terminated byte loops for FNAME and FCOMMENT. -/
def readZeroTerminated : Nat → Rdr → List Nat → Except Failure (List Nat × Rdr)
  | 0, _, _ => .error .fuel
  | fuel + 1, rdr, acc =>
    match rdr.nextByte with
    | .error e => .error e
    | .ok (b, rdr1) =>
      if b = 0 then .ok (acc, rdr1) else readZeroTerminated fuel rdr1 (acc ++ [b])

/-- Read n bytes by repeated next_byte, returning them. -/
def nextBytes : Nat → Rdr → Except Failure (List Nat × Rdr)
  | 0, rdr => .ok ([], rdr)
  | k + 1, rdr =>
    match rdr.nextByte with
    | .error e => .error e
    | .ok (b, rdr1) =>
      match nextBytes k rdr1 with
      | .error e => .error e
      | .ok (bs, rdr2) => .ok (b :: bs, rdr2)

/-- The header part of decompress (src/decompress.rs lines 57-158): magic
via copy_to, method and flags bytes, MTIME, XFL, OS, then the optional
fields in order (FEXTRA length plus skip with its consumed-count check,
FNAME, FCOMMENT, FHCRC).  fuel bounds the NUL-terminated loops. -/
def parseHeader (fuel : Nat) (input : List Nat) : Except Failure (Hdr × Rdr) :=
  let rdr := Rdr.new input
  match rdr.copyTo 2 with
  | .error e => .error e
  | .ok (ids, _, rdr1) =>
    let id1 := ids.getD 0 0
    let id2 := ids.getD 1 0
    if ¬ (id1 = 0x1f ∧ id2 = 0x8b) then .error (.err "wrong magic number")
    else
      match rdr1.nextByte with
      | .error e => .error e
      | .ok (cm, rdr2) =>
        if ¬ cm = 8 then .error (.err "wrong compression method detected")
        else
          match rdr2.nextByte with
          | .error e => .error e
          | .ok (flg, rdr3) =>
            match nextBytes 4 rdr3 with
            | .error e => .error e
            | .ok (mt, rdr4) =>
              let mtime := le32 (mt.getD 0 0) (mt.getD 1 0) (mt.getD 2 0) (mt.getD 3 0)
              match rdr4.nextByte with
              | .error e => .error e
              | .ok (xfl, rdr5) =>
                match rdr5.nextByte with
                | .error e => .error e
                | .ok (os, rdr6) =>
                  let afterExtra : Except Failure Rdr :=
                    if flagHasExtra flg then
                      match nextBytes 2 rdr6 with
                      | .error e => .error e
                      | .ok (xl, rdr7) =>
                        let xlen := le16 (xl.getD 0 0) (xl.getD 1 0)
                        match rdr7.skip xlen with
                        | .error e => .error e
                        | .ok (consumed, rdr8) =>
                          if ¬ xlen = consumed then
                            .error (.err "extra field: failed to read")
                          else .ok rdr8
                    else .ok rdr6
                  match afterExtra with
                  | .error e => .error e
                  | .ok rdr9 =>
                    let afterName : Except Failure (Option (List Nat) × Rdr) :=
                      if flagHasName flg then
                        match readZeroTerminated fuel rdr9 [] with
                        | .error e => .error e
                        | .ok (nm, rdr10) => .ok (some nm, rdr10)
                      else .ok (none, rdr9)
                    match afterName with
                    | .error e => .error e
                    | .ok (name, rdr11) =>
                      let afterComment : Except Failure (Option (List Nat) × Rdr) :=
                        if flagHasComment flg then
                          match readZeroTerminated fuel rdr11 [] with
                          | .error e => .error e
                          | .ok (cmt, rdr12) => .ok (some cmt, rdr12)
                        else .ok (none, rdr11)
                      match afterComment with
                      | .error e => .error e
                      | .ok (comment, rdr13) =>
                        let afterCrc : Except Failure (Option Nat × Rdr) :=
                          if flagHasCrc flg then
                            match nextBytes 2 rdr13 with
                            | .error e => .error e
                            | .ok (cb, rdr14) =>
                              .ok (some (le16 (cb.getD 0 0) (cb.getD 1 0)), rdr14)
                          else .ok (none, rdr13)
                        match afterCrc with
                        | .error e => .error e
                        | .ok (crc16, rdr15) =>
                          .ok (⟨id1, id2, cm, flg, mtime, xfl, os, name, comment, crc16⟩,
                               rdr15)

/-- The trailer part of decompress (src/decompress.rs lines 225-251): align
to a byte boundary, read CRC32 (unused) and ISIZE, and compare ISIZE with
the low 32 bits of the byte count. -/
def readTrailer (rdr : Rdr) (totalBytes : Nat) : Except Failure Unit :=
  match rdr.ensureByteBoundary with
  | .error e => .error e
  | .ok rdr1 =>
    match nextBytes 4 rdr1 with
    | .error e => .error e
    | .ok (cb, rdr2) =>
      let _crc32 := le32 (cb.getD 0 0) (cb.getD 1 0) (cb.getD 2 0) (cb.getD 3 0)
      match nextBytes 4 rdr2 with
      | .error e => .error e
      | .ok (ib, _) =>
        let isize := le32 (ib.getD 0 0) (ib.getD 1 0) (ib.getD 2 0) (ib.getD 3 0)
        if ¬ totalBytes &&& 0xffffffff = isize then
          .error (.err "input size differs from actual size")
        else .ok ()

/-- Placeholder node for the infallible unwraps of the fixed trees. -/
def fallbackNode : Node := Node.mk none none none

/-- The fixed distance tree (thread-local DIST_TREE, unwrap infallible). -/
def distTreeFixed : Node :=
  match buildTree DIST_LENGTHS with
  | .ok t => t
  | .error _ => fallbackNode

/-- The value list of one node. -/
def leafOfVal : Option Nat → List Nat
  | some w => [w]
  | none => []

/-- All values stored in a trie (at the node itself or below). -/
def Node.leafVals : Node → List Nat
  | .mk v none none => leafOfVal v
  | .mk v (some z) none => leafOfVal v ++ z.leafVals
  | .mk v none (some o) => leafOfVal v ++ o.leafVals
  | .mk v (some z) (some o) => leafOfVal v ++ z.leafVals ++ o.leafVals


/-- A code-length alphabet with symbols 0, 16, 17 and 18 at two bits each
(codes 00, 01, 10, 11), used to exercise read_code_lengths concretely. -/
def clLengths : List Nat := [2, 0, 0, 0, 0, 0, 0, 0, 0, 0, 0, 0, 0, 0, 0, 0, 2, 2, 2]

/-- The tree built from clLengths. -/
def clTree : Node :=
  match buildTree clLengths with
  | .ok t => t
  | .error _ => fallbackNode

/-! ## Canonical Huffman code apparatus (for build_tree, C7) -/

/-- Occurrence count of a code length in the length vector. -/
def cnt (lengths : List Nat) (L : Nat) : Nat := lengths.count L

/-- The next_code recurrence of RFC 1951 3.2.2 as a function of the length
histogram: the first canonical code of each bit length. -/
def ncRec (c : Nat → Nat) : Nat → Nat
  | 0 => 0
  | 1 => 0
  | L + 2 => (ncRec c (L + 1) + c (L + 1)) * 2

/-- Partial Kraft sum: the sum of c j * 2 ^ (maxB - j) over 1 <= j < L. -/
def kraftPartial (c : Nat → Nat) (maxB : Nat) : Nat → Nat
  | 0 => 0
  | 1 => 0
  | L + 2 => kraftPartial c maxB (L + 1) + c (L + 1) * 2 ^ (maxB - (L + 1))

/-- The canonical code assigned to symbol i: the first code of its length
plus the number of earlier symbols sharing that length. -/
def codeOf (lengths : List Nat) (i : Nat) : Nat :=
  ncRec (cnt lengths) (lengths.getD i 0) +
    (lengths.take i).count (lengths.getD i 0)

/-- Numeric value of an MSB-first bit list. -/
def bitsVal : List Bool → Nat
  | [] => 0
  | b :: bs => b.toNat * 2 ^ bs.length + bitsVal bs

/-- Sequence of BinaryTrie::add operations with explicit bit-list keys. -/
def addAll : Node → List (List Bool × Nat) → Except Failure Node
  | t, [] => .ok t
  | t, (k, v) :: rest =>
    match t.addPath k v with
    | .error e => .error e
    | .ok t1 => addAll t1 rest

/-- The keys build_tree inserts, in insertion order: for each symbol of
nonzero length, the MSB-first bits of its canonical code. -/
def keysFrom (full : List Nat) : Nat → List Nat → List (List Bool × Nat)
  | _, [] => []
  | i, L :: rest =>
    if L = 0 then keysFrom full (i + 1) rest
    else (natBits (codeOf full i) L, i) :: keysFrom full (i + 1) rest

/-- Trie shape invariant: every inserted key leads to a childless leaf
holding its symbol, every leaf is an inserted key, and every reachable
node lies on the path of some inserted key. -/
def Inv (t : Node) (ks : List (List Bool × Nat)) : Prop :=
  (∀ kv ∈ ks, ∃ n, t.runPath kv.1 = .ok n ∧ n.value = some kv.2 ∧
      n.child false = none ∧ n.child true = none) ∧
  (∀ p n w, t.runPath p = .ok n → n.value = some w → (p, w) ∈ ks) ∧
  (∀ p n, t.runPath p = .ok n → p = [] ∨ ∃ kv ∈ ks, p <+: kv.1)

/-- The tree build_tree produces for the complete length vector [1, 2, 2]. -/
def c7tree : Node :=
  match buildTree [1, 2, 2] with
  | .ok t => t
  | .error _ => fallbackNode

/-! ## Theorems -/

/-- Masking with 0xffffffff is reduction modulo two to the 32. -/
theorem land_ffffffff (n : Nat) : n &&& 0xffffffff = n % 4294967296 := by
  have h32 : (4294967296 : Nat) = 2 ^ 32 := by norm_num
  have h31 : (0xffffffff : Nat) = 2 ^ 32 - 1 := by norm_num
  rw [h32, h31]
  apply Nat.eq_of_testBit_eq
  intro i
  rw [Nat.testBit_and, Nat.testBit_mod_two_pow, Nat.testBit_two_pow_sub_one]
  cases h : n.testBit i <;> simp [Bool.and_comm]

/-- C5, the claim as stated, refuted: on the source whose first byte is 1 the
first next_bit of a freshly constructed Reader does not return that byte's
least significant bit (it returns the low bit of the zero register, false,
without touching the source). -/
theorem c5_counterexample :
    ¬ ∀ (b : Nat) (rest : List Nat), ∃ s1 : Rdr,
        (Rdr.new (b :: rest)).nextBit = .ok (Nat.testBit b 0, s1) := by
  intro h
  obtain ⟨s1, hs⟩ := h 1 []
  have hr : (Rdr.new [1]).nextBit = .ok (false, ⟨[1], 0, 1⟩) := rfl
  rw [hr] at hs
  simp [Nat.testBit] at hs

/-- C5 (amended): immediately after construction the register is zero and
the index is 0 with nothing read; the first next_bit returns the low bit of
the zero register (false) without fetching from the source, which stays
untouched; the first fetch happens only after the eighth bit. -/
theorem c5_theorem (src : List Nat) :
    (Rdr.new src).current = 0 ∧ (Rdr.new src).pos = 0 ∧
      (Rdr.new src).nextBit = .ok (false, ⟨src, 0, 1⟩) := by
  refine ⟨rfl, rfl, ?_⟩
  simp [Rdr.new, Rdr.nextBit]

/-- C6, the claim as stated, refuted: copy_within(d, 0) on a buffer holding
one byte returns (storage[next..], storage[..next]), and the second slice is
the whole content, not empty. -/
theorem c6_counterexample :
    ¬ ∀ (rb : RB) (d : Nat), rb.WF → 0 < d → d ≤ rb.len →
        (rb.copyWithin d 0).map Prod.snd = .ok ([], []) := by
  intro h
  have hc := h ⟨[5], 1, 3⟩ 1 (by constructor <;> simp [RB.WF]) (by decide) (by decide)
  have hr : ((⟨[5], 1, 3⟩ : RB).copyWithin 1 0).map Prod.snd =
      .ok (([] : List Nat), [5]) := rfl
  rw [hr] at hc
  simp at hc

/-- C6 (amended): copy_within(d, 0) leaves the buffer contents and the write
cursor unchanged, but the returned pair is (storage[next..stored],
storage[..next]) — the buffer content around the cursor — which is a pair of
empty slices only when the buffer is empty. -/
theorem c6_theorem (rb : RB) (d : Nat) (hwf : rb.WF) (hd : 0 < d)
    (hok : rb.isWrapped = true ∨ d ≤ rb.next) :
    rb.copyWithin d 0 = .ok (rb, rb.buf.drop rb.next, rb.buf.take rb.next) := by
  obtain ⟨hlen, hnext, hgrow⟩ := hwf
  unfold RB.copyWithin
  rw [if_neg (by omega), if_neg (not_not_intro hok), if_neg (by omega)]
  simp [RB.pushLoop, RB.setLoop, Nat.mod_eq_of_lt hnext]

/-- C6 witness: the amended statement at the buffer of the counterexample. -/
theorem c6_witness :
    (⟨[5], 1, 3⟩ : RB).WF ∧
      (⟨[5], 1, 3⟩ : RB).copyWithin 1 0 = .ok (⟨[5], 1, 3⟩, [], [5]) := by
  refine ⟨by constructor <;> simp [RB.WF], ?_⟩
  exact c6_theorem ⟨[5], 1, 3⟩ 1 (by constructor <;> simp [RB.WF]) (by decide)
    (Or.inr (by decide))

/-- C2, the claim as stated, refuted: a fixed-Huffman block whose first
back-reference has distance 1 against an empty window makes decoding abort
with a panic (the assert in RingBuffer::copy_within), not with an error
value returned through the Result chain. -/
theorem c2_counterexample :
    decompressBlock 10 ⟨[2], 3, 0⟩ (Wtr.new 32768) =
      .error (.panic "distance too long for current buffer") ∧
    ¬ ∃ msg, decompressBlock 10 ⟨[2], 3, 0⟩ (Wtr.new 32768) = .error (.err msg) := by
  constructor
  · rfl
  · rintro ⟨msg, hmsg⟩
    rw [show decompressBlock 10 ⟨[2], 3, 0⟩ (Wtr.new 32768) =
        .error (.panic "distance too long for current buffer") from rfl] at hmsg
    simp at hmsg

/-- C2 (amended): a back-reference whose distance is 0, or exceeds the
current window length while the window is not yet wrapped, makes
RingBuffer::copy_within panic (an assertion failure that aborts the
session), for every buffer state and requested length. -/
theorem c2_theorem (rb : RB) (d L : Nat)
    (h : d = 0 ∨ (¬ rb.isWrapped = true ∧ rb.next < d)) :
    ∃ msg, rb.copyWithin d L = .error (.panic msg) := by
  unfold RB.copyWithin
  rcases h with h0 | ⟨hw, hn⟩
  · exact ⟨_, by rw [if_pos h0]⟩
  · refine ⟨"distance too long for current buffer", ?_⟩
    rw [if_neg (by omega), if_pos (not_or.mpr ⟨hw, by omega⟩)]

/-- C2 witness: distance 1 against an empty unwrapped window panics. -/
theorem c2_witness :
    ∃ msg, (⟨[], 0, 4⟩ : RB).copyWithin 1 3 = .error (.panic msg) :=
  c2_theorem ⟨[], 0, 4⟩ 1 3 (Or.inr ⟨by decide, by decide⟩)

/-- C3: the stored block with LEN = 0xffff (NLEN its ones complement, so the
header check passes) panics at the capacity assert of RingBuffer::copy_from
before reading any payload, instead of copying 65535 bytes through the
window. -/
theorem c3_theorem :
    rawDecompress ⟨[0xff, 0x00, 0x00], 0xff, 0⟩ (Wtr.new 32768) =
      .error (.panic "length longer than capacity") := rfl

/-- C4: a header with FEXTRA set and XLEN = 0 — nothing to skip, so FNAME
should start at the 0x41 byte directly after the XLEN field; the parser
instead returns an empty name, because copy_to drops the prefetched 0x41
byte, and stands one byte late in the stream (0x99 in the register). -/
theorem c4_theorem :
    parseHeader 50 [0x1f, 0x8b, 8, 0x0c, 0, 0, 0, 0, 0, 3, 0, 0, 0x41, 0x00, 0x99, 0x00] =
      .ok (⟨0x1f, 0x8b, 8, 0x0c, 0, 0, 3, some [], none, none⟩, ⟨[0x00], 0x99, 0⟩) ∧
    (some ([] : List Nat) ≠ some [0x41]) := by
  exact ⟨rfl, by decide⟩

/-- C10, the claim as stated, refuted: the fixed distance tree decodes the
five-bit sequence 11110 to symbol 30, and the payload loop then indexes the
30-entry DIST_INFO table out of bounds (a panic), on a concrete fixed-block
input. -/
theorem c10_counterexample :
    decompressFixed 10 ⟨[7], 192, 0⟩ (Wtr.new 32768) =
      .error (.panic "index out of bounds") ∧
    readNextCode ⟨[], 15, 0⟩ distTreeFixed = .ok (30, ⟨[], 15, 5⟩) :=
  ⟨rfl, rfl⟩


/-- A value stored at a node is among the leaf values. -/
theorem value_mem_leafVals (n : Node) (w : Nat) (h : n.value = some w) :
    w ∈ n.leafVals := by
  obtain ⟨v, z, o⟩ := n
  have hv : v = some w := h
  subst hv
  cases z <;> cases o <;> simp [Node.leafVals, leafOfVal]

theorem mem_leafVals_zero (v : Option Nat) (z o : Option Node) (c : Node) (w : Nat)
    (hz : z = some c) (hw : w ∈ c.leafVals) : w ∈ (Node.mk v z o).leafVals := by
  subst hz
  cases o <;> simp [Node.leafVals, leafOfVal] <;> tauto

theorem mem_leafVals_one (v : Option Nat) (z o : Option Node) (c : Node) (w : Nat)
    (ho : o = some c) (hw : w ∈ c.leafVals) : w ∈ (Node.mk v z o).leafVals := by
  subst ho
  cases z <;> simp [Node.leafVals, leafOfVal] <;> tauto

theorem readNextCode_mem_leafVals (s : Rdr) (n : Node) (v : Nat) (s1 : Rdr)
    (h : readNextCode s n = .ok (v, s1)) : v ∈ n.leafVals := by
  induction s, n using readNextCode.induct generalizing v s1 with
  | case1 s vv z o e hx =>
    rw [readNextCode, hx] at h
    exact absurd h (by simp)
  | case2 s vv o s2 hx =>
    rw [readNextCode, hx] at h
    exact absurd h (by simp)
  | case3 s vv z s2 hx =>
    rw [readNextCode, hx] at h
    exact absurd h (by simp)
  | case4 s vv o s2 c w hc hx =>
    rw [readNextCode, hx] at h
    simp only [hc] at h
    obtain ⟨hv, hs⟩ := Prod.mk.injEq .. ▸ Except.ok.inj h
    exact hv ▸ mem_leafVals_zero vv _ o c w rfl (value_mem_leafVals c w hc)
  | case5 s vv o s2 c hc hx ih =>
    rw [readNextCode, hx] at h
    simp only [hc] at h
    exact mem_leafVals_zero vv _ o c v rfl (ih v s1 h)
  | case6 s vv z s2 c w hc hx =>
    rw [readNextCode, hx] at h
    simp only [hc] at h
    obtain ⟨hv, hs⟩ := Prod.mk.injEq .. ▸ Except.ok.inj h
    exact hv ▸ mem_leafVals_one vv z _ c w rfl (value_mem_leafVals c w hc)
  | case7 s vv z s2 c hc hx ih =>
    rw [readNextCode, hx] at h
    simp only [hc] at h
    exact mem_leafVals_one vv z _ c v rfl (ih v s1 h)

/-- C10 (amended): every distance symbol the fixed distance tree can return
is below 32 (its leaves), and symbol 30 is reachable by a crafted bit
sequence, so the 30-entry DIST_INFO lookup is not always in bounds (the
out-of-bounds access is the panic of the counterexample). -/
theorem c10_theorem :
    (∀ (s : Rdr) (v : Nat) (s1 : Rdr),
        readNextCode s distTreeFixed = .ok (v, s1) → v < 32) ∧
    readNextCode ⟨[], 15, 0⟩ distTreeFixed = .ok (30, ⟨[], 15, 5⟩) := by
  constructor
  · intro s v s1 h
    have hm := readNextCode_mem_leafVals s distTreeFixed v s1 h
    have hall : ∀ x ∈ distTreeFixed.leafVals, x < 32 := by decide
    exact hall v hm
  · rfl


/-- C9: after alignment the trailer phase reads the four CRC32 bytes (c0..c3,
which do not influence the outcome: they are read but never verified) and
the four ISIZE bytes little-endian, and fails, with the size-mismatch error,
exactly when the total output byte count modulo two to the 32 differs from
ISIZE — succeeding otherwise; and from any mid-byte position (pos 1..7) it
first discards the partial byte, so the trailer starts at the next whole
byte. -/
theorem c9_theorem (c0 c1 c2 c3 i0 i1 i2 i3 d p : Nat) (rest : List Nat) (total : Nat) :
    readTrailer ⟨[c1, c2, c3, i0, i1, i2, i3] ++ rest, c0, 0⟩ total =
      (if total % 4294967296 = le32 i0 i1 i2 i3 then .ok ()
       else .error (.err "input size differs from actual size")) ∧
    (1 ≤ p → p ≤ 7 →
      readTrailer ⟨[c0, c1, c2, c3, i0, i1, i2, i3] ++ rest, d, p⟩ total =
        readTrailer ⟨[c1, c2, c3, i0, i1, i2, i3] ++ rest, c0, 0⟩ total) := by
  constructor
  · simp only [readTrailer, Rdr.ensureByteBoundary, nextBytes, Rdr.nextByte,
      Rdr.readNextByte, land_ffffffff]
    simp only [List.cons_append]
    norm_num
  · intro h1 h7
    have hp : ¬ p = 0 := by omega
    conv_lhs => rw [readTrailer]
    rw [show Rdr.ensureByteBoundary ⟨[c0, c1, c2, c3, i0, i1, i2, i3] ++ rest, d, p⟩ =
        .ok ⟨[c1, c2, c3, i0, i1, i2, i3] ++ rest, c0, 0⟩ by
      simp [Rdr.ensureByteBoundary, hp, Rdr.readNextByte]]
    conv_rhs => rw [readTrailer]
    rfl


/-- The accumulator of read_number_le stays below two to the bits read. -/
theorem readNumberLeAux_lt : ∀ (k : Nat) (s : Rdr) (acc i v : Nat) (s1 : Rdr),
    acc < 2 ^ i → readNumberLeAux s acc i k = .ok (v, s1) → v < 2 ^ (i + k) := by
  intro k
  induction k with
  | zero =>
    intro s acc i v s1 hacc h
    simp [readNumberLeAux] at h
    obtain ⟨rfl, rfl⟩ := h
    simpa using hacc
  | succ n ih =>
    intro s acc i v s1 hacc h
    rw [readNumberLeAux] at h
    match hb : s.nextBit with
    | .error e => rw [hb] at h; exact absurd h (by simp)
    | .ok (b, s2) =>
      rw [hb] at h
      have hacc2 : (if b then acc ||| (1 <<< i) else acc) < 2 ^ (i + 1) := by
        cases b
        · simpa using Nat.lt_of_lt_of_le hacc (Nat.pow_le_pow_right (by omega) (by omega))
        · simp only [if_pos rfl]
          apply Nat.or_lt_two_pow
          · exact Nat.lt_of_lt_of_le hacc (Nat.pow_le_pow_right (by omega) (by omega))
          · rw [Nat.shiftLeft_eq, Nat.one_mul]
            exact Nat.pow_lt_pow_right (by omega) (by omega)
      have := ih s2 _ (i + 1) v s1 hacc2 h
      have heq : i + 1 + n = i + (n + 1) := by omega
      rwa [heq] at this

/-- A value read by read_number_le over a given bit count is below two to
that count. -/
theorem readNumberLe_lt (s : Rdr) (bits v : Nat) (s1 : Rdr)
    (h : readNumberLe s bits = .ok (v, s1)) : v < 2 ^ bits := by
  have := readNumberLeAux_lt bits s 0 0 v s1 (by norm_num) h
  simpa using this

/-- C8: while decoding code-length symbols, symbol 16 reads 2 extra bits v
(v below 4, so 3..6 repeats) and replays the previous code length, failing
with the no-previous error when none was emitted; symbol 17 reads 3 extra
bits (3..10 zeros); symbol 18 reads 7 extra bits (11..138 zeros); both set
the previous length to 0.  Each case is stated as the exact one-step
unfolding of the read_code_lengths loop. -/
theorem c8_theorem (fuel : Nat) (tree : Node) (rdr r1 : Rdr) (out : List Nat)
    (prev : Option Nat) (remain c : Nat)
    (hcode : readNextCode rdr tree = .ok (c, r1)) :
    ((c = 16 → ∀ v r2, readNumberLe r1 2 = .ok (v, r2) → v + 3 ≤ remain + 1 →
       v < 4 ∧
       (prev = none →
         readCodeLengths (fuel + 1) tree rdr out prev (remain + 1) =
           .error (.err "no previous value")) ∧
       (∀ b, prev = some b →
         readCodeLengths (fuel + 1) tree rdr out prev (remain + 1) =
           readCodeLengths fuel tree r2 (out ++ List.replicate (v + 3) b) (some b)
             (remain + 1 - (v + 3)))) ∧
     (c = 17 → ∀ v r2, readNumberLe r1 3 = .ok (v, r2) → v + 3 ≤ remain + 1 →
       v < 8 ∧
       readCodeLengths (fuel + 1) tree rdr out prev (remain + 1) =
         readCodeLengths fuel tree r2 (out ++ List.replicate (v + 3) 0) (some 0)
           (remain + 1 - (v + 3))) ∧
     (c = 18 → ∀ v r2, readNumberLe r1 7 = .ok (v, r2) → v + 11 ≤ remain + 1 →
       v < 128 ∧
       readCodeLengths (fuel + 1) tree rdr out prev (remain + 1) =
         readCodeLengths fuel tree r2 (out ++ List.replicate (v + 11) 0) (some 0)
           (remain + 1 - (v + 11)))) := by
  refine ⟨?_, ?_, ?_⟩
  · rintro rfl v r2 hv hle
    have hbound := readNumberLe_lt r1 2 v r2 hv
    norm_num at hbound
    refine ⟨hbound, ?_, ?_⟩
    · rintro rfl
      simp only [readCodeLengths, hcode, hv]
      norm_num [hle]
    · rintro b rfl
      simp only [readCodeLengths, hcode, hv]
      norm_num [hle]
  · rintro rfl v r2 hv hle
    have hbound := readNumberLe_lt r1 3 v r2 hv
    norm_num at hbound
    refine ⟨hbound, ?_⟩
    simp only [readCodeLengths, hcode]
    norm_num
    simp only [hv]
    norm_num [hle]
    intro hcon
    omega
  · rintro rfl v r2 hv hle
    have hbound := readNumberLe_lt r1 7 v r2 hv
    norm_num at hbound
    refine ⟨hbound, ?_⟩
    simp only [readCodeLengths, hcode]
    norm_num
    simp only [hv]
    norm_num [hle]
    intro hcon
    omega

/-- C8 witness: on the concrete code-length tree, a 16 after a previous
length 7 replays it six times, a 16 without a previous length fails, a 17
emits five zeros, an 18 emits eleven zeros. -/
theorem c8_witness :
    (readCodeLengths 5 clTree ⟨[], 14, 0⟩ [] (some 7) 6 =
       readCodeLengths 4 clTree ⟨[], 14, 4⟩ ([] ++ List.replicate 6 7) (some 7) 0) ∧
    (readCodeLengths 5 clTree ⟨[], 14, 0⟩ [] none 6 = .error (.err "no previous value")) ∧
    (readCodeLengths 5 clTree ⟨[], 9, 0⟩ [] none 6 =
       readCodeLengths 4 clTree ⟨[], 9, 5⟩ ([] ++ List.replicate 5 0) (some 0) 1) ∧
    (readCodeLengths 12 clTree ⟨[0], 3, 0⟩ [] none 11 =
       readCodeLengths 11 clTree ⟨[], 0, 1⟩ ([] ++ List.replicate 11 0) (some 0) 0) := by
  refine ⟨?_, ?_, ?_, ?_⟩
  · exact ((c8_theorem 4 clTree ⟨[], 14, 0⟩ ⟨[], 14, 2⟩ [] (some 7) 5 16 rfl).1 rfl 3
      ⟨[], 14, 4⟩ rfl (by norm_num)).2.2 7 rfl
  · exact ((c8_theorem 4 clTree ⟨[], 14, 0⟩ ⟨[], 14, 2⟩ [] none 5 16 rfl).1 rfl 3
      ⟨[], 14, 4⟩ rfl (by norm_num)).2.1 rfl
  · exact ((c8_theorem 4 clTree ⟨[], 9, 0⟩ ⟨[], 9, 2⟩ [] none 5 17 rfl).2.1 rfl 2
      ⟨[], 9, 5⟩ rfl (by norm_num)).2
  · exact ((c8_theorem 11 clTree ⟨[0], 3, 0⟩ ⟨[0], 3, 2⟩ [] none 10 18 rfl).2.2 rfl 0
      ⟨[], 0, 1⟩ rfl (by norm_num)).2



/-- The push phase appends exactly its iteration count. -/
theorem pushLoop_length (k : Nat) : ∀ (buf : List Nat) (base : Nat),
    (RB.pushLoop buf base k).length = buf.length + k := by
  induction k with
  | zero => intro buf base; simp [RB.pushLoop]
  | succ n ih =>
    intro buf base
    rw [RB.pushLoop, ih]
    simp
    omega

/-- The naive reference copy splits over a sum of lengths. -/
theorem naive_append (d : Nat) : ∀ (a b : Nat) (rb : RB),
    rb.naiveCopyWithin d (a + b) = (rb.naiveCopyWithin d a).naiveCopyWithin d b := by
  intro a
  induction a with
  | zero => intro b rb; simp [RB.naiveCopyWithin]
  | succ n ih =>
    intro b rb
    have h : n + 1 + b = (n + b) + 1 := by omega
    rw [h]
    rw [show RB.naiveCopyWithin rb d (n + b + 1) =
        RB.naiveCopyWithin (rb.pushBack d) d (n + b) from rfl]
    rw [show RB.naiveCopyWithin rb d (n + 1) =
        RB.naiveCopyWithin (rb.pushBack d) d n from rfl]
    exact ih b (rb.pushBack d)

/-- One naive step on a growing (not wrapped) buffer is an append of the
byte d positions before the cursor. -/
theorem pushBack_unwrapped (buf : List Nat) (next cap d : Nat)
    (hlen : buf.length = next) (hlt : next < cap) (hd : 0 < d) (hdn : d ≤ next) :
    RB.pushBack ⟨buf, next, cap⟩ d =
      ⟨buf ++ [buf.getD (next - d) 0], if next + 1 = cap then 0 else next + 1, cap⟩ := by
  have hidx : (next + cap - d) % cap = next - d := by
    rw [show next + cap - d = cap + (next - d) by omega]
    rw [Nat.add_mod_left]
    exact Nat.mod_eq_of_lt (by omega)
  have hw : RB.isWrapped ⟨buf, next, cap⟩ = false := by
    simp [RB.isWrapped]
    omega
  simp only [RB.pushBack, RB.push, hidx, hw]
  simp

/-- One naive step on a wrapped buffer is an in-place circular write. -/
theorem pushBack_wrapped (buf : List Nat) (next cap d : Nat)
    (hlen : buf.length = cap) (hlt : next < cap) :
    RB.pushBack ⟨buf, next, cap⟩ d =
      ⟨buf.set next (buf.getD ((next + cap - d) % cap) 0), (next + 1) % cap, cap⟩ := by
  have hw : RB.isWrapped ⟨buf, next, cap⟩ = true := by simp [RB.isWrapped, hlen]
  simp only [RB.pushBack, RB.push, hw]
  simp only [if_true]
  congr 1
  by_cases h : next + 1 = cap
  · simp [h]
  · rw [if_neg h, Nat.mod_eq_of_lt (by omega)]

/-- While the buffer has room, k naive steps equal the push phase of
copy_within (the cursor wrapping to 0 exactly when the Vec fills). -/
theorem naive_phase1 (cap d : Nat) (hd : 0 < d) :
    ∀ (k : Nat) (buf : List Nat) (next : Nat),
      buf.length = next → next < cap → next + k ≤ cap → d ≤ next →
      RB.naiveCopyWithin ⟨buf, next, cap⟩ d k =
        ⟨RB.pushLoop buf (next - d) k, if next + k = cap then 0 else next + k, cap⟩ := by
  intro k
  induction k with
  | zero =>
    intro buf next hlen hlt hsum hdn
    simp only [RB.naiveCopyWithin, RB.pushLoop, Nat.add_zero]
    rw [if_neg (by omega)]
  | succ n ih =>
    intro buf next hlen hlt hsum hdn
    rw [show RB.naiveCopyWithin ⟨buf, next, cap⟩ d (n + 1) =
        RB.naiveCopyWithin (RB.pushBack ⟨buf, next, cap⟩ d) d n from rfl]
    rw [pushBack_unwrapped buf next cap d hlen hlt hd hdn]
    rw [RB.pushLoop]
    by_cases hc : next + 1 = cap
    · have hn0 : n = 0 := by omega
      subst hn0
      simp only [if_pos hc, RB.naiveCopyWithin, RB.pushLoop]
    · rw [if_neg hc]
      have := ih (buf ++ [buf.getD (next - d) 0]) (next + 1)
        (by simp; omega) (by omega) (by omega) (by omega)
      rw [this]
      have harg : next + 1 - d = next - d + 1 := by omega
      rw [harg]
      have hsum2 : next + 1 + n = next + (n + 1) := by omega
      rw [hsum2]

/-- On a full buffer, c naive steps equal c iterations of the in-place
phase of copy_within, at any loop offset i. -/
theorem naive_phase2 (cap d n0 : Nat) (hcap : 0 < cap) (hd : d ≤ cap) :
    ∀ (c i : Nat) (buf : List Nat), buf.length = cap →
      RB.naiveCopyWithin ⟨buf, (n0 + i) % cap, cap⟩ d c =
        ⟨RB.setLoop buf i n0 (n0 + cap - d) cap c, (n0 + i + c) % cap, cap⟩ := by
  intro c
  induction c with
  | zero =>
    intro i buf hlen
    simp [RB.naiveCopyWithin, RB.setLoop]
  | succ m ih =>
    intro i buf hlen
    rw [show RB.naiveCopyWithin ⟨buf, (n0 + i) % cap, cap⟩ d (m + 1) =
        RB.naiveCopyWithin (RB.pushBack ⟨buf, (n0 + i) % cap, cap⟩ d) d m from rfl]
    rw [pushBack_wrapped buf ((n0 + i) % cap) cap d hlen (Nat.mod_lt _ hcap)]
    have hread : ((n0 + i) % cap + cap - d) % cap = (n0 + cap - d + i) % cap := by
      rw [show (n0 + i) % cap + cap - d = (n0 + i) % cap + (cap - d) by omega]
      rw [Nat.mod_add_mod]
      congr 1
      omega
    have hnext : ((n0 + i) % cap + 1) % cap = (n0 + (i + 1)) % cap := by
      rw [Nat.mod_add_mod]
      congr 1
    rw [hread, hnext]
    have hbuflen : (buf.set ((n0 + i) % cap) (buf.getD ((n0 + cap - d + i) % cap) 0)).length = cap := by
      simp [hlen]
    have h1 : n0 + (i + 1) + m = n0 + i + (m + 1) := by omega
    rw [ih (i + 1) _ hbuflen, h1]
    conv_rhs => rw [RB.setLoop]

/-- Closed form of copy_within when its three asserts pass. -/
theorem copyWithin_ok (buf : List Nat) (next cap d L : Nat) (hd : ¬ d = 0)
    (hcond : RB.isWrapped ⟨buf, next, cap⟩ = true ∨ d ≤ next) (hL : L ≤ cap) :
    (RB.copyWithin ⟨buf, next, cap⟩ d L).map Prod.fst =
      .ok ⟨RB.setLoop
             (RB.pushLoop buf (next + cap - d - cap)
               (min L (cap - RB.len ⟨buf, next, cap⟩)))
             (min L (cap - RB.len ⟨buf, next, cap⟩)) next (next + cap - d) cap
             (L - min L (cap - RB.len ⟨buf, next, cap⟩)),
           (next + L) % cap, cap⟩ := by
  unfold RB.copyWithin
  rw [if_neg hd, if_neg (not_not_intro hcond), if_neg (not_not_intro hL)]
  rfl

/-- C1: under the preconditions (distance positive and within the current
window length, length at most the capacity), the two-phase copy_within
leaves the ring buffer in exactly the state of the naive byte-by-byte
reference: length pushes, each reading the byte distance positions before
the write cursor at that moment, the cursor advancing modulo the capacity
(so overlapping copies repeat the distance-byte prefix, and a full-window
distance copies the window forward). -/
theorem c1_theorem (rb : RB) (d L : Nat) (hwf : rb.WF) (hd : 0 < d)
    (hdl : d ≤ rb.len) (hL : L ≤ rb.cap) :
    (rb.copyWithin d L).map Prod.fst = .ok (rb.naiveCopyWithin d L) := by
  obtain ⟨buf, next, cap⟩ := rb
  obtain ⟨hlen, hnext, hgrow⟩ := hwf
  dsimp only at hlen hnext hgrow hdl hL
  have hcap : 0 < cap := by omega
  by_cases hwrap : buf.length = cap
  · -- wrapped: the append phase is empty and the whole copy is in place
    have hW : RB.isWrapped ⟨buf, next, cap⟩ = true := by
      simp [RB.isWrapped, hwrap]
    have hlenC : RB.len ⟨buf, next, cap⟩ = cap := by simp [RB.len, hW]
    have hdcap : d ≤ cap := by rw [hlenC] at hdl; exact hdl
    rw [copyWithin_ok buf next cap d L (by omega) (Or.inl hW) hL]
    rw [hlenC]
    simp only [Nat.sub_self, Nat.min_zero, Nat.sub_zero]
    have hn := naive_phase2 cap d next hcap hdcap L 0 buf hwrap
    rw [show (next + 0) % cap = next from by
      rw [Nat.add_zero]; exact Nat.mod_eq_of_lt hnext] at hn
    rw [hn]
    rw [show RB.pushLoop buf (next + cap - d - cap) 0 = buf from rfl]
    have harith0 : next + 0 + L = next + L := by omega
    rw [harith0]
  · -- not wrapped: append phase then (possibly) in-place phase
    have hlt : buf.length < cap := by omega
    have heq : next = buf.length := hgrow hlt
    have hW : RB.isWrapped ⟨buf, next, cap⟩ = false := by
      simp [RB.isWrapped]
      omega
    have hlenN : RB.len ⟨buf, next, cap⟩ = next := by simp [RB.len, hW]
    have hdn : d ≤ next := by rw [hlenN] at hdl; exact hdl
    rw [copyWithin_ok buf next cap d L (by omega) (Or.inr hdn) hL]
    rw [hlenN]
    have hminR := Nat.min_le_right L (cap - next)
    have hminL := Nat.min_le_left L (cap - next)
    have hstart : next + cap - d - cap = next - d := by omega
    rw [hstart]
    have hsplit : L = min L (cap - next) + (L - min L (cap - next)) := by omega
    have happ := naive_append d (min L (cap - next)) (L - min L (cap - next))
      ⟨buf, next, cap⟩
    rw [← hsplit] at happ
    rw [happ]
    rw [naive_phase1 cap d hd (min L (cap - next)) buf next heq.symm (by omega)
      (by omega) hdn]
    by_cases hfull : min L (cap - next) = L
    · rw [hfull]
      simp only [Nat.sub_self]
      rw [show RB.setLoop (RB.pushLoop buf (next - d) L) L next (next + cap - d) cap 0 =
        RB.pushLoop buf (next - d) L from rfl]
      rw [show RB.naiveCopyWithin
          ⟨RB.pushLoop buf (next - d) L, if next + L = cap then 0 else next + L, cap⟩ d 0 =
          ⟨RB.pushLoop buf (next - d) L, if next + L = cap then 0 else next + L, cap⟩ from rfl]
      have hle : next + L ≤ cap := by
        rw [hfull] at hminR
        omega
      congr 1
      by_cases hc : next + L = cap
      · rw [if_pos hc, hc, Nat.mod_self]
      · rw [if_neg hc, Nat.mod_eq_of_lt (by omega)]
    · have hetbpEq : min L (cap - next) = cap - next := by
        rcases Nat.le_total L (cap - next) with h | h
        · exact absurd (Nat.min_eq_left h) hfull
        · exact Nat.min_eq_right h
      have hlen1 : (RB.pushLoop buf (next - d) (min L (cap - next))).length = cap := by
        rw [pushLoop_length]
        omega
      have hnext1 : (if next + min L (cap - next) = cap then 0
          else next + min L (cap - next)) = (next + min L (cap - next)) % cap := by
        have hc : next + min L (cap - next) = cap := by omega
        rw [hc]
        simp [Nat.mod_self]
      rw [hnext1]
      rw [naive_phase2 cap d next hcap (by omega) (L - min L (cap - next))
        (min L (cap - next)) _ hlen1]
      have harith : next + min L (cap - next) + (L - min L (cap - next)) = next + L := by
        omega
      rw [harith]

/-- C1 witness: a copy that exercises the append phase and the wrapped
in-place phase in one call (capacity 4, three bytes buffered, distance 2,
length 4). -/
theorem c1_witness :
    (⟨[10, 11, 12], 3, 4⟩ : RB).WF ∧ 0 < 2 ∧ 2 ≤ (⟨[10, 11, 12], 3, 4⟩ : RB).len ∧ 4 ≤ 4 ∧
    ((⟨[10, 11, 12], 3, 4⟩ : RB).copyWithin 2 4).map Prod.fst =
      .ok ((⟨[10, 11, 12], 3, 4⟩ : RB).naiveCopyWithin 2 4) :=
  ⟨by unfold RB.WF; decide, by decide, by decide, by decide,
   c1_theorem ⟨[10, 11, 12], 3, 4⟩ 2 4 (by unfold RB.WF; decide) (by decide) (by decide)
     (by decide)⟩

theorem get_bit_testBit (n i : Nat) : get_bit n i = n.testBit i := by
  simp only [get_bit, Nat.shiftLeft_eq, one_mul, Nat.two_pow_and]
  cases h : n.testBit i <;> simp [h, Nat.pos_pow_of_pos]

theorem natBits_length (c w : Nat) : (natBits c w).length = w := by
  induction w with
  | zero => rfl
  | succ n ih => simp [natBits, ih]

theorem natBits_eq_iff (v1 v2 w : Nat) :
    natBits v1 w = natBits v2 w ↔ ∀ i < w, v1.testBit i = v2.testBit i := by
  induction w with
  | zero => simp [natBits]
  | succ n ih =>
    simp only [natBits, List.cons.injEq, get_bit_testBit]
    rw [ih]
    constructor
    · rintro ⟨hb, ht⟩ i hi
      rcases Nat.lt_succ_iff_lt_or_eq.mp hi with h | h
      · exact ht i h
      · exact h ▸ hb
    · intro h
      exact ⟨h n (by omega), fun i hi => h i (by omega)⟩

theorem natBits_inj (v1 v2 w : Nat) (h1 : v1 < 2 ^ w) (h2 : v2 < 2 ^ w)
    (heq : natBits v1 w = natBits v2 w) : v1 = v2 := by
  apply Nat.eq_of_testBit_eq
  intro i
  by_cases hi : i < w
  · exact (natBits_eq_iff v1 v2 w).mp heq i hi
  · have p1 : v1 < 2 ^ i := lt_of_lt_of_le h1 (Nat.pow_le_pow_right (by omega) (by omega))
    have p2 : v2 < 2 ^ i := lt_of_lt_of_le h2 (Nat.pow_le_pow_right (by omega) (by omega))
    rw [Nat.testBit_lt_two_pow p1, Nat.testBit_lt_two_pow p2]

theorem natBits_split (c a b : Nat) :
    natBits c (a + b) = natBits (c / 2 ^ b) a ++ natBits c b := by
  induction a with
  | zero => simp [natBits]
  | succ n ih =>
    have harr : n + 1 + b = (n + b) + 1 := by omega
    rw [harr]
    simp only [natBits, ih, List.cons_append]
    congr 1
    rw [get_bit_testBit, get_bit_testBit, ← Nat.shiftRight_eq_div_pow,
      Nat.testBit_shiftRight]
    congr 1
    omega

theorem natBits_mod (c w m : Nat) (hw : w ≤ m) :
    natBits (c % 2 ^ m) w = natBits c w := by
  rw [natBits_eq_iff]
  intro i hi
  rw [Nat.testBit_mod_two_pow]
  simp [show i < m by omega]

theorem bitsVal_lt (bs : List Bool) : bitsVal bs < 2 ^ bs.length := by
  induction bs with
  | nil => simp [bitsVal]
  | cons b bs ih =>
    simp only [bitsVal, List.length_cons, pow_succ]
    cases b <;> simp [Bool.toNat] <;> omega

theorem natBits_bitsVal (bs : List Bool) : natBits (bitsVal bs) bs.length = bs := by
  induction bs with
  | nil => rfl
  | cons b bs ih =>
    have hv := bitsVal_lt bs
    simp only [bitsVal, List.length_cons, natBits]
    congr 1
    · rw [get_bit_testBit, Nat.testBit_to_div_mod]
      rw [Nat.mul_comm (Bool.toNat b), Nat.mul_add_div (Nat.pos_pow_of_pos _ (by omega))]
      rw [Nat.div_eq_of_lt hv]
      cases b <;> simp [Bool.toNat]
    · have hmod : (Bool.toNat b * 2 ^ bs.length + bitsVal bs) % 2 ^ bs.length
          = bitsVal bs := by
        rw [Nat.mul_comm (Bool.toNat b), Nat.mul_add_mod, Nat.mod_eq_of_lt hv]
      rw [← natBits_mod (Bool.toNat b * 2 ^ bs.length + bitsVal bs) bs.length
        bs.length le_rfl, hmod, ih]

theorem natBits_pref_iff (c1 c2 L1 L2 : Nat) (hL : L1 ≤ L2) (h1 : c1 < 2 ^ L1)
    (h2 : c2 < 2 ^ L2) :
    natBits c1 L1 <+: natBits c2 L2 ↔ c1 = c2 / 2 ^ (L2 - L1) := by
  have hsplit : natBits c2 L2 = natBits (c2 / 2 ^ (L2 - L1)) L1 ++ natBits c2 (L2 - L1) := by
    conv_lhs => rw [show L2 = L1 + (L2 - L1) by omega]
    rw [natBits_split]
  constructor
  · intro h
    have hq : c2 / 2 ^ (L2 - L1) < 2 ^ L1 := by
      rw [Nat.div_lt_iff_lt_mul (Nat.pos_pow_of_pos _ (by omega))]
      calc c2 < 2 ^ L2 := h2
        _ = 2 ^ L1 * 2 ^ (L2 - L1) := by rw [← pow_add]; congr 1; omega
    apply natBits_inj c1 _ L1 h1 hq
    have ht := List.prefix_iff_eq_take.mp h
    rw [natBits_length] at ht
    rw [ht, hsplit, List.take_left' (natBits_length _ _)]
  · intro h
    rw [hsplit, h]
    exact List.prefix_append _ _

theorem kraft_le_succ (c : Nat → Nat) (m L : Nat) :
    kraftPartial c m L ≤ kraftPartial c m (L + 1) := by
  match L with
  | 0 => simp [kraftPartial]
  | 1 => simp [kraftPartial]
  | L + 2 =>
    show kraftPartial c m (L + 2) ≤ kraftPartial c m (L + 2) + _
    omega

theorem kraft_mono (c : Nat → Nat) (m : Nat) {a b : Nat} (h : a ≤ b) :
    kraftPartial c m a ≤ kraftPartial c m b := by
  induction b with
  | zero => simp_all
  | succ n ih =>
    rcases Nat.lt_succ_iff_lt_or_eq.mp (Nat.lt_succ_of_le h) with h1 | h1
    · exact le_trans (ih (by omega)) (kraft_le_succ c m n)
    · exact h1 ▸ le_rfl

theorem ncRec_mul (c : Nat → Nat) (m : Nat) :
    ∀ L, 1 ≤ L → L ≤ m → ncRec c L * 2 ^ (m - L) = kraftPartial c m L := by
  intro L
  induction L with
  | zero => omega
  | succ n ih =>
    intro _ hle
    match n, ih with
    | 0, _ => simp [ncRec, kraftPartial]
    | n + 1, ih =>
      have ihv := ih (by omega) (by omega)
      show (ncRec c (n + 1) + c (n + 1)) * 2 * 2 ^ (m - (n + 2)) = _
      have hpow : 2 * 2 ^ (m - (n + 2)) = 2 ^ (m - (n + 1)) := by
        rw [← pow_succ']
        congr 1
        omega
      calc (ncRec c (n + 1) + c (n + 1)) * 2 * 2 ^ (m - (n + 2))
          = (ncRec c (n + 1) + c (n + 1)) * (2 * 2 ^ (m - (n + 2))) := by ring
        _ = (ncRec c (n + 1) + c (n + 1)) * 2 ^ (m - (n + 1)) := by rw [hpow]
        _ = ncRec c (n + 1) * 2 ^ (m - (n + 1)) + c (n + 1) * 2 ^ (m - (n + 1)) := by ring
        _ = kraftPartial c m (n + 1) + c (n + 1) * 2 ^ (m - (n + 1)) := by rw [ihv]
        _ = kraftPartial c m (n + 2) := rfl

theorem ncRec_add_mul (c : Nat → Nat) (m L : Nat) (h1 : 1 ≤ L) (h2 : L ≤ m) :
    (ncRec c L + c L) * 2 ^ (m - L) = kraftPartial c m (L + 1) := by
  match L, h1 with
  | L + 1, _ =>
    show _ = kraftPartial c m (L + 2)
    have : kraftPartial c m (L + 2)
        = kraftPartial c m (L + 1) + c (L + 1) * 2 ^ (m - (L + 1)) := rfl
    rw [this, ← ncRec_mul c m (L + 1) (by omega) h2]
    ring

theorem codes_fit (c : Nat → Nat) (m : Nat)
    (hkraft : kraftPartial c m (m + 1) = 2 ^ m) (L : Nat) (h1 : 1 ≤ L) (h2 : L ≤ m) :
    ncRec c L + c L ≤ 2 ^ L := by
  have h := ncRec_add_mul c m L h1 h2
  have hle : (ncRec c L + c L) * 2 ^ (m - L) ≤ 2 ^ L * 2 ^ (m - L) := by
    rw [h, ← pow_add, show L + (m - L) = m by omega, ← hkraft]
    exact kraft_mono c m (by omega)
  exact Nat.le_of_mul_le_mul_right hle (Nat.pos_pow_of_pos _ (by omega))

theorem kraft_tile (c : Nat → Nat) (m : Nat) :
    ∀ B x, x < kraftPartial c m (B + 1) →
      ∃ L, 1 ≤ L ∧ L ≤ B ∧ kraftPartial c m L ≤ x ∧ x < kraftPartial c m (L + 1) := by
  intro B
  induction B with
  | zero => intro x hx; simp [kraftPartial] at hx
  | succ n ih =>
    intro x hx
    by_cases h : x < kraftPartial c m (n + 1)
    · obtain ⟨L, h1, h2, h3, h4⟩ := ih x h
      exact ⟨L, h1, by omega, h3, h4⟩
    · exact ⟨n + 1, by omega, by omega, by omega, hx⟩

theorem count_split (l : List Nat) (i a : Nat) :
    l.count a = (l.take i).count a + (l.drop i).count a := by
  conv_lhs => rw [← List.take_append_drop i l]
  exact List.count_append a _ _

theorem count_take_lt (l : List Nat) (i : Nat) (h : i < l.length) :
    (l.take i).count (l.getD i 0) < l.count (l.getD i 0) := by
  set a := l.getD i 0 with ha
  have hsucc : (l.take (i + 1)).count a = (l.take i).count a + 1 := by
    rw [List.take_succ, List.getElem?_eq_getElem h, List.count_append]
    simp only [Option.toList_some, List.count_singleton]
    rw [ha, List.getD_eq_getElem l 0 h]
    simp
  have := count_split l (i + 1) a
  omega

theorem count_take_strict (l : List Nat) (i1 i2 a : Nat) (h12 : i1 < i2)
    (h1 : i1 < l.length) (ha : l.getD i1 0 = a) :
    (l.take i1).count a < (l.take i2).count a := by
  have hsub : (l.take i2).take i1 = l.take i1 := by
    rw [List.take_take]
    congr 1
    omega
  have hlen : i1 < (l.take i2).length := by
    rw [List.length_take]
    omega
  have hdrop : (l.take i2).drop i1 = (l.take i2)[i1] :: (l.take i2).drop (i1 + 1) :=
    List.drop_eq_getElem_cons hlen
  have hget : (l.take i2)[i1] = a := by
    rw [List.getElem_take, ← ha, List.getD_eq_getElem l 0 h1]
  have hsplit := count_split (l.take i2) i1 a
  rw [hsub, hdrop, hget] at hsplit
  simp only [List.count_cons, beq_self_eq_true, if_true] at hsplit
  omega

theorem exists_kth_occ :
    ∀ (l : List Nat) (a k : Nat), k < l.count a →
      ∃ i, i < l.length ∧ l.getD i 0 = a ∧ (l.take i).count a = k := by
  intro l
  induction l with
  | nil => intro a k h; simp [List.count_nil] at h
  | cons x xs ih =>
    intro a k h
    by_cases hx : x = a
    · subst hx
      match k with
      | 0 => exact ⟨0, by simp, rfl, rfl⟩
      | k + 1 =>
        have hk : k < xs.count x := by
          rw [List.count_cons] at h
          simp at h
          omega
        obtain ⟨i, hi, hgi, hci⟩ := ih x k hk
        refine ⟨i + 1, by simp; omega, hgi, ?_⟩
        rw [List.take_succ_cons, List.count_cons, hci]
        simp
    · have hk : k < xs.count a := by
        rw [List.count_cons] at h
        simp [hx] at h
        omega
      obtain ⟨i, hi, hgi, hci⟩ := ih a k hk
      refine ⟨i + 1, by simp; omega, hgi, ?_⟩
      rw [List.take_succ_cons, List.count_cons, hci]
      simp [hx]

theorem len_le_maxB (lengths : List Nat) (maxB : Nat)
    (hmax : lengths.max? = some maxB) (i : Nat) (h : i < lengths.length) :
    lengths.getD i 0 ≤ maxB := by
  have hm := (List.max?_eq_some_iff'.mp hmax).2
  rw [List.getD_eq_getElem lengths 0 h]
  exact hm _ (List.getElem_mem h)

theorem maxB_pos (c : Nat → Nat) (maxB : Nat)
    (hkraft : kraftPartial c maxB (maxB + 1) = 2 ^ maxB) : 1 ≤ maxB := by
  by_contra h
  have hz : maxB = 0 := by omega
  subst hz
  simp [kraftPartial] at hkraft

theorem codeOf_bounds (lengths : List Nat) (i : Nat) (h : i < lengths.length) :
    ncRec (cnt lengths) (lengths.getD i 0) ≤ codeOf lengths i ∧
      codeOf lengths i < ncRec (cnt lengths) (lengths.getD i 0) +
        cnt lengths (lengths.getD i 0) := by
  have := count_take_lt lengths i h
  unfold codeOf cnt
  omega

theorem codeOf_lt (lengths : List Nat) (maxB : Nat)
    (hmax : lengths.max? = some maxB)
    (hkraft : kraftPartial (cnt lengths) maxB (maxB + 1) = 2 ^ maxB)
    (i : Nat) (h : i < lengths.length) (hne : lengths.getD i 0 ≠ 0) :
    codeOf lengths i < 2 ^ (lengths.getD i 0) := by
  have hb := codeOf_bounds lengths i h
  have hfit := codes_fit (cnt lengths) maxB hkraft (lengths.getD i 0)
    (by omega) (len_le_maxB lengths maxB hmax i h)
  omega

theorem code_inj (lengths : List Nat) (maxB : Nat)
    (hmax : lengths.max? = some maxB)
    (hkraft : kraftPartial (cnt lengths) maxB (maxB + 1) = 2 ^ maxB)
    (i1 i2 : Nat) (h1 : i1 < lengths.length) (h2 : i2 < lengths.length)
    (hne1 : lengths.getD i1 0 ≠ 0) (hne2 : lengths.getD i2 0 ≠ 0)
    (hpref : natBits (codeOf lengths i1) (lengths.getD i1 0) <+:
      natBits (codeOf lengths i2) (lengths.getD i2 0)) :
    i1 = i2 := by
  set c := cnt lengths with hc
  set L1 := lengths.getD i1 0 with hL1
  set L2 := lengths.getD i2 0 with hL2
  have hm1 : L1 ≤ maxB := len_le_maxB lengths maxB hmax i1 h1
  have hm2 : L2 ≤ maxB := len_le_maxB lengths maxB hmax i2 h2
  have hlt1 : codeOf lengths i1 < 2 ^ L1 := codeOf_lt lengths maxB hmax hkraft i1 h1 hne1
  have hlt2 : codeOf lengths i2 < 2 ^ L2 := codeOf_lt lengths maxB hmax hkraft i2 h2 hne2
  have hL12 : L1 ≤ L2 := by
    have := hpref.length_le
    rwa [natBits_length, natBits_length] at this
  have hdiv : codeOf lengths i1 = codeOf lengths i2 / 2 ^ (L2 - L1) :=
    (natBits_pref_iff _ _ _ _ hL12 hlt1 hlt2).mp hpref
  have hb1 := codeOf_bounds lengths i1 h1
  have hb2 := codeOf_bounds lengths i2 h2
  simp only [← hc, ← hL1] at hb1
  simp only [← hc, ← hL2] at hb2
  by_cases hL : L1 = L2
  · have hcode : codeOf lengths i1 = codeOf lengths i2 := by
      rw [hdiv, hL]
      simp
    rcases Nat.lt_trichotomy i1 i2 with hlt | heq | hgt
    · exfalso
      have := count_take_strict lengths i1 i2 L1 hlt h1 hL1.symm
      have e1 : codeOf lengths i1 = ncRec c L1 + (lengths.take i1).count L1 := rfl
      have e2 : codeOf lengths i2 = ncRec c L2 + (lengths.take i2).count L2 := rfl
      rw [e1, e2, ← hL] at hcode
      omega
    · exact heq
    · exfalso
      have := count_take_strict lengths i2 i1 L1 hgt h2 (hL2.symm.trans hL.symm)
      have e1 : codeOf lengths i1 = ncRec c L1 + (lengths.take i1).count L1 := rfl
      have e2 : codeOf lengths i2 = ncRec c L2 + (lengths.take i2).count L2 := rfl
      rw [e1, e2, ← hL] at hcode
      omega
  · exfalso
    have hL12s : L1 < L2 := by omega
    set x := codeOf lengths i2 * 2 ^ (maxB - L2) with hx
    have hlow : kraftPartial c maxB L2 ≤ x := by
      rw [← ncRec_mul c maxB L2 (by omega) hm2]
      exact Nat.mul_le_mul_right _ (by omega)
    have hup : x < kraftPartial c maxB (L1 + 1) := by
      have hstep : codeOf lengths i2 < 2 ^ (L2 - L1) * (codeOf lengths i1 + 1) := by
        rw [hdiv]
        exact Nat.lt_mul_div_succ _ (Nat.pos_pow_of_pos _ (by omega))
      have hsx : x < 2 ^ (L2 - L1) * (codeOf lengths i1 + 1) * 2 ^ (maxB - L2) :=
        (Nat.mul_lt_mul_right (Nat.pos_pow_of_pos _ (by omega))).mpr hstep
      have hpows : 2 ^ (L2 - L1) * (codeOf lengths i1 + 1) * 2 ^ (maxB - L2)
          = (codeOf lengths i1 + 1) * 2 ^ (maxB - L1) := by
        rw [Nat.mul_comm (2 ^ (L2 - L1)), Nat.mul_assoc, ← pow_add]
        congr 2
        omega
      rw [hpows] at hsx
      have hsucc : (codeOf lengths i1 + 1) * 2 ^ (maxB - L1)
          ≤ (ncRec c L1 + c L1) * 2 ^ (maxB - L1) :=
        Nat.mul_le_mul_right _ (by omega)
      calc x < (codeOf lengths i1 + 1) * 2 ^ (maxB - L1) := hsx
        _ ≤ (ncRec c L1 + c L1) * 2 ^ (maxB - L1) := hsucc
        _ = kraftPartial c maxB (L1 + 1) := ncRec_add_mul c maxB L1 (by omega) hm1
    have hmono : kraftPartial c maxB (L1 + 1) ≤ kraftPartial c maxB L2 :=
      kraft_mono c maxB (by omega)
    omega

theorem code_cover (lengths : List Nat) (maxB : Nat)
    (hmax : lengths.max? = some maxB)
    (hkraft : kraftPartial (cnt lengths) maxB (maxB + 1) = 2 ^ maxB)
    (bs : List Bool) (hlen : bs.length ≤ maxB) :
    ∃ i, i < lengths.length ∧ lengths.getD i 0 ≠ 0 ∧
      (natBits (codeOf lengths i) (lengths.getD i 0) <+: bs ∨
        bs <+: natBits (codeOf lengths i) (lengths.getD i 0)) := by
  set c := cnt lengths with hc
  set k := bs.length with hk
  set a := bitsVal bs with ha
  have halt : a < 2 ^ k := bitsVal_lt bs
  set x := a * 2 ^ (maxB - k) with hxdef
  have hx : x < 2 ^ maxB := by
    calc x < 2 ^ k * 2 ^ (maxB - k) :=
        (Nat.mul_lt_mul_right (Nat.pos_pow_of_pos _ (by omega))).mpr halt
      _ = 2 ^ maxB := by rw [← pow_add]; congr 1; omega
  rw [← hkraft] at hx
  obtain ⟨L, hL1, hLm, htlow, htup⟩ := kraft_tile c maxB maxB x hx
  rw [← ncRec_mul c maxB L hL1 hLm] at htlow
  rw [← ncRec_add_mul c maxB L hL1 hLm] at htup
  have hpos : 0 < 2 ^ (maxB - L) := Nat.pos_pow_of_pos _ (by omega)
  set q := x / 2 ^ (maxB - L) with hq
  have hql : ncRec c L ≤ q := (Nat.le_div_iff_mul_le hpos).mpr htlow
  have hqu : q < ncRec c L + c L := (Nat.div_lt_iff_lt_mul hpos).mpr htup
  have hkk : q - ncRec c L < c L := by omega
  obtain ⟨i, hi, hgi, hci⟩ := exists_kth_occ lengths L (q - ncRec c L) hkk
  have hcode : codeOf lengths i = q := by
    unfold codeOf
    rw [hgi, ← hc, hci]
    omega
  have hqlt : q < 2 ^ L := by
    have := codes_fit c maxB hkraft L hL1 hLm
    omega
  refine ⟨i, hi, by omega, ?_⟩
  have hbs : natBits a k = bs := by rw [ha, hk]; exact natBits_bitsVal bs
  rw [hgi, hcode]
  by_cases hkL : L ≤ k
  · left
    rw [← hbs]
    rw [natBits_pref_iff q a L k hkL hqlt halt]
    rw [hq, hxdef]
    have hsplit : (2 : Nat) ^ (maxB - L) = 2 ^ (k - L) * 2 ^ (maxB - k) := by
      rw [← pow_add]
      congr 1
      omega
    rw [hsplit, Nat.mul_div_mul_right _ _ (Nat.pos_pow_of_pos _ (by omega))]
  · right
    rw [← hbs]
    rw [natBits_pref_iff a q k L (by omega) halt hqlt]
    rw [hq, hxdef]
    rw [Nat.div_div_eq_div_mul, ← pow_add]
    rw [show maxB - L + (L - k) = maxB - k by omega]
    rw [Nat.mul_div_cancel _ (Nat.pos_pow_of_pos _ (by omega))]

theorem runPath_append (p q : List Bool) : ∀ (t : Node),
    t.runPath (p ++ q) =
      match t.runPath p with
      | .ok n => n.runPath q
      | .error e => .error e := by
  induction p with
  | nil => intro t; rfl
  | cons b bs ih =>
    intro t
    show Node.runPath t (b :: (bs ++ q)) = _
    rw [Node.runPath]
    rw [show Node.runPath t (b :: bs) =
      match t.followB b with
      | .error e => .error e
      | .ok c => Node.runPath c bs from rfl]
    cases t.followB b with
    | error e => rfl
    | ok c => exact ih c

theorem runPath_mt (b : Bool) (q : List Bool) :
    Node.runPath (Node.mk none none none) (b :: q) =
      .error (.err "attempted to follow from non-leaf node without child") := by
  cases b <;> rfl

theorem value_setChild (t : Node) (b : Bool) (c : Node) :
    (t.setChild b c).value = t.value := by
  obtain ⟨v, z, o⟩ := t
  cases b <;> rfl

theorem child_setChild_same (t : Node) (b : Bool) (c : Node) :
    (t.setChild b c).child b = some c := by
  obtain ⟨v, z, o⟩ := t
  cases b <;> rfl

theorem child_setChild_other (t : Node) (b b' : Bool) (c : Node) (h : b' ≠ b) :
    (t.setChild b c).child b' = t.child b' := by
  obtain ⟨v, z, o⟩ := t
  cases b <;> cases b' <;> simp_all [Node.setChild, Node.child]

theorem runPath_cons (t : Node) (b : Bool) (q : List Bool) :
    t.runPath (b :: q) =
      match t.followB b with
      | .error e => .error e
      | .ok c => c.runPath q := rfl

theorem followB_child (t : Node) (b : Bool) (c : Node) (h : t.child b = some c) :
    t.followB b = .ok c := by
  rw [Node.followB, h]

theorem followB_setChild_other (t : Node) (b b' : Bool) (c : Node) (h : b' ≠ b) :
    (t.setChild b c).followB b' = t.followB b' := by
  rw [Node.followB, Node.followB, child_setChild_other t b b' c h]
  cases hc : t.child b' with
  | some d => rfl
  | none => simp [Node.isLeaf, value_setChild]

theorem addPath_effect : ∀ (k : List Bool) (t : Node) (v : Nat), k ≠ [] →
    (∀ p n, p <+: k → p ≠ k → t.runPath p = .ok n → n.value = none) →
    (∀ n, ¬ t.runPath k = .ok n) →
    ∃ t', t.addPath k v = .ok t' ∧
      (∀ q, ¬ k <+: q → ¬ q <+: k → t'.runPath q = t.runPath q) ∧
      (∀ q n, q <+: k → q ≠ k → t'.runPath q = .ok n → n.value = none) ∧
      (∃ n, t'.runPath k = .ok n ∧ n.value = some v ∧
        n.child false = none ∧ n.child true = none) := by
  intro k
  induction k with
  | nil => intro t v hne; exact absurd rfl hne
  | cons b rest ih =>
    intro t v _ hnl hnode
    obtain ⟨tv, z, o⟩ := t
    have hroot : tv = none :=
      hnl [] (Node.mk tv z o) List.nil_prefix (by simp) rfl
    subst hroot
    have hleaf : (Node.mk none z o).isLeaf = false := rfl
    cases rest with
    | nil =>
      have hcb : (Node.mk none z o).child b = none := by
        cases hc : (Node.mk none z o).child b with
        | none => rfl
        | some c =>
          exfalso
          apply hnode c
          rw [runPath_cons, followB_child _ _ _ hc]
          rfl
      refine ⟨(Node.mk none z o).setChild b (Node.mk (some v) none none), ?_, ?_, ?_, ?_⟩
      · simp [Node.addPath, hleaf, hcb]
      · intro q hq1 hq2
        match q with
        | [] => exact absurd List.nil_prefix hq2
        | a :: q' =>
          have hab : a ≠ b := by
            intro h
            subst h
            exact hq1 (List.cons_prefix_cons.mpr ⟨rfl, List.nil_prefix⟩)
          rw [runPath_cons, runPath_cons, followB_setChild_other _ _ _ _ hab]
      · intro q n hq hne hrun
        match q, hq with
        | [], _ =>
          have hn : (Node.mk none z o).setChild b (Node.mk (some v) none none) = n := by
            simpa [Node.runPath] using hrun
          rw [← hn, value_setChild]
          rfl
        | a :: q', hq =>
          exfalso
          obtain ⟨hab, hq'⟩ := List.cons_prefix_cons.mp hq
          have : q' = [] := by simpa using hq'
          subst this
          subst hab
          exact hne rfl
      · refine ⟨Node.mk (some v) none none, ?_, rfl, rfl, rfl⟩
        rw [runPath_cons, followB_child _ _ _ (child_setChild_same _ _ _)]
        rfl
    | cons b2 bs =>
      set child' := ((Node.mk none z o).child b).getD (Node.mk none none none) with hchd
      have hrel : ∀ p, p ≠ [] →
          Node.runPath (Node.mk none z o) (b :: p) = child'.runPath p := by
        intro p hp
        cases hcb : (Node.mk none z o).child b with
        | some c =>
          have hcc : child' = c := by rw [hchd, hcb]; rfl
          rw [hcc, runPath_cons, followB_child _ _ _ hcb]
        | none =>
          have hcc : child' = Node.mk none none none := by rw [hchd, hcb]; rfl
          rw [hcc]
          match p, hp with
          | a :: q, _ =>
            rw [runPath_mt, runPath_cons]
            have hfb : (Node.mk none z o).followB b =
                .error (.err "attempted to follow from non-leaf node without child") := by
              simp only [Node.followB, hcb]
              rfl
            rw [hfb]
      have hcv : child'.value = none := by
        cases hcb : (Node.mk none z o).child b with
        | some c =>
          have hcc : child' = c := by rw [hchd, hcb]; rfl
          rw [hcc]
          apply hnl [b] c (List.cons_prefix_cons.mpr ⟨rfl, List.nil_prefix⟩) (by simp)
          rw [runPath_cons, followB_child _ _ _ hcb]
          rfl
        | none =>
          have hcc : child' = Node.mk none none none := by rw [hchd, hcb]; rfl
          rw [hcc]
          rfl
      have hch : ∀ p n, p <+: (b2 :: bs) → p ≠ b2 :: bs → child'.runPath p = .ok n →
          n.value = none := by
        intro p n hp hne hrun
        match p with
        | [] =>
          have : child' = n := by simpa [Node.runPath] using hrun
          rw [← this]
          exact hcv
        | a :: q' =>
          apply hnl (b :: a :: q') n
            (List.cons_prefix_cons.mpr ⟨rfl, hp⟩) (by simp [hne])
          rw [hrel (a :: q') (by simp)]
          exact hrun
      have hnd : ∀ n, ¬ child'.runPath (b2 :: bs) = .ok n := by
        intro n hn
        apply hnode n
        rw [hrel (b2 :: bs) (by simp)]
        exact hn
      obtain ⟨c', hadd', heqi, hpref', nleaf, hrunl, hvall, hcfl, hctl⟩ :=
        ih child' v (by simp) hch hnd
      have haddeq : Node.addPath (Node.mk none z o) (b :: b2 :: bs) v =
          match Node.addPath child' (b2 :: bs) v with
          | .ok c => .ok ((Node.mk none z o).setChild b c)
          | .error e => .error e := rfl
      refine ⟨(Node.mk none z o).setChild b c', ?_, ?_, ?_, ?_⟩
      · rw [haddeq, hadd']
      · intro q hq1 hq2
        match q with
        | [] => exact absurd List.nil_prefix hq2
        | a :: q' =>
          by_cases hab : a = b
          · subst hab
            have hne' : q' ≠ [] := by
              intro h
              subst h
              exact hq2 (List.cons_prefix_cons.mpr ⟨rfl, List.nil_prefix⟩)
            have h1 : ¬ (b2 :: bs) <+: q' := by
              intro h
              exact hq1 (List.cons_prefix_cons.mpr ⟨rfl, h⟩)
            have h2 : ¬ q' <+: (b2 :: bs) := by
              intro h
              exact hq2 (List.cons_prefix_cons.mpr ⟨rfl, h⟩)
            rw [runPath_cons, followB_child _ _ _ (child_setChild_same _ _ _)]
            show c'.runPath q' = _
            rw [heqi q' h1 h2, hrel q' hne']
          · rw [runPath_cons, runPath_cons, followB_setChild_other _ _ _ _ hab]
      · intro q n hq hne hrun
        match q, hq with
        | [], _ =>
          have hn : (Node.mk none z o).setChild b c' = n := by
            simpa [Node.runPath] using hrun
          rw [← hn, value_setChild]
          rfl
        | a :: q', hq =>
          obtain ⟨hab, hq'⟩ := List.cons_prefix_cons.mp hq
          subst hab
          rw [runPath_cons, followB_child _ _ _ (child_setChild_same _ _ _)] at hrun
          exact hpref' q' n hq' (by intro h; exact hne (by rw [h])) hrun
      · refine ⟨nleaf, ?_, hvall, hcfl, hctl⟩
        rw [runPath_cons, followB_child _ _ _ (child_setChild_same _ _ _)]
        exact hrunl

theorem runPath_leaf_ext (t : Node) (k : List Bool) (nl : Node)
    (hrun : t.runPath k = .ok nl) (hcf : nl.child false = none)
    (hct : nl.child true = none) (b : Bool) (rest : List Bool) :
    ∃ e, t.runPath (k ++ b :: rest) = .error e := by
  rw [runPath_append, hrun]
  show ∃ e, nl.runPath (b :: rest) = .error e
  rw [runPath_cons]
  have hcb : nl.child b = none := by cases b <;> assumption
  rw [Node.followB, hcb]
  cases nl.isLeaf <;> exact ⟨_, rfl⟩

theorem Inv_nil : Inv (Node.mk none none none) [] := by
  refine ⟨by simp, ?_, ?_⟩
  · intro p n w hrun hval
    match p with
    | [] =>
      have : Node.mk none none none = n := by simpa [Node.runPath] using hrun
      rw [← this] at hval
      simp [Node.value] at hval
    | b :: q =>
      rw [runPath_mt] at hrun
      exact absurd hrun (by simp)
  · intro p n hrun
    match p with
    | [] => exact Or.inl rfl
    | b :: q =>
      rw [runPath_mt] at hrun
      exact absurd hrun (by simp)

theorem inv_step (t : Node) (ks : List (List Bool × Nat)) (k : List Bool) (v : Nat)
    (hinv : Inv t ks) (hne : k ≠ [])
    (hinc : ∀ kv ∈ ks, ¬ kv.1 <+: k ∧ ¬ k <+: kv.1) :
    ∃ t', t.addPath k v = .ok t' ∧ Inv t' (ks ++ [(k, v)]) := by
  obtain ⟨hI1, hI2, hI3⟩ := hinv
  have hnl : ∀ p n, p <+: k → p ≠ k → t.runPath p = .ok n → n.value = none := by
    intro p n hp hpe hrun
    cases hval : n.value with
    | none => rfl
    | some w =>
      exfalso
      have hmem := hI2 p n w hrun hval
      exact (hinc (p, w) hmem).1 hp
  have hnd : ∀ n, ¬ t.runPath k = .ok n := by
    intro n hrun
    rcases hI3 k n hrun with h | ⟨kv, hkv, hpref⟩
    · exact hne h
    · exact (hinc kv hkv).2 hpref
  obtain ⟨t', hadd, heq, hpref, nl, hrun, hval, hcf, hct⟩ :=
    addPath_effect k t v hne hnl hnd
  refine ⟨t', hadd, ?_, ?_, ?_⟩
  · intro kv hkv
    rw [List.mem_append] at hkv
    rcases hkv with hkv | hkv
    · obtain ⟨n, hn, hnv, hncf, hnct⟩ := hI1 kv hkv
      refine ⟨n, ?_, hnv, hncf, hnct⟩
      rw [heq kv.1 (hinc kv hkv).2 (hinc kv hkv).1]
      exact hn
    · rw [List.mem_singleton] at hkv
      subst hkv
      exact ⟨nl, hrun, hval, hcf, hct⟩
  · intro p n w hrunp hvalp
    by_cases hpk : p <+: k
    · by_cases hpe : p = k
      · subst hpe
        rw [hrun] at hrunp
        have : nl = n := by simpa using hrunp
        rw [← this] at hvalp
        rw [hval] at hvalp
        have : v = w := by simpa using hvalp
        subst this
        simp
      · exact absurd (hpref p n hpk hpe hrunp) (by simp [hvalp])
    · by_cases hkp : k <+: p
      · exfalso
        obtain ⟨tl, htl⟩ := hkp
        match tl, htl with
        | [], htl =>
          rw [List.append_nil] at htl
          exact hpk (htl ▸ List.prefix_rfl)
        | b :: rest, htl =>
          obtain ⟨e, he⟩ := runPath_leaf_ext t' k nl hrun hcf hct b rest
          rw [htl] at he
          rw [he] at hrunp
          exact absurd hrunp (by simp)
      · have := hI2 p n w (by rw [← heq p hkp hpk]; exact hrunp) hvalp
        exact List.mem_append.mpr (Or.inl this)
  · intro p n hrunp
    by_cases hpk : p <+: k
    · exact Or.inr ⟨(k, v), List.mem_append.mpr (Or.inr (by simp)), hpk⟩
    · by_cases hkp : k <+: p
      · exfalso
        obtain ⟨tl, htl⟩ := hkp
        match tl, htl with
        | [], htl =>
          rw [List.append_nil] at htl
          exact hpk (htl ▸ List.prefix_rfl)
        | b :: rest, htl =>
          obtain ⟨e, he⟩ := runPath_leaf_ext t' k nl hrun hcf hct b rest
          rw [htl] at he
          rw [he] at hrunp
          exact absurd hrunp (by simp)
      · rcases hI3 p n (by rw [← heq p hkp hpk]; exact hrunp) with h | ⟨kv, hkv, hp⟩
        · exact Or.inl h
        · exact Or.inr ⟨kv, List.mem_append.mpr (Or.inl hkv), hp⟩

theorem addAll_inv : ∀ (ks2 : List (List Bool × Nat)) (t : Node)
    (ks1 : List (List Bool × Nat)), Inv t ks1 →
    List.Pairwise (fun a b => ¬ a.1 <+: b.1 ∧ ¬ b.1 <+: a.1) (ks1 ++ ks2) →
    (∀ kv ∈ ks2, kv.1 ≠ []) →
    ∃ t', addAll t ks2 = .ok t' ∧ Inv t' (ks1 ++ ks2) := by
  intro ks2
  induction ks2 with
  | nil =>
    intro t ks1 hinv _ _
    exact ⟨t, rfl, by simpa using hinv⟩
  | cons kv rest ih =>
    intro t ks1 hinv hpw hne
    obtain ⟨k, v⟩ := kv
    have hinc : ∀ kv ∈ ks1, ¬ kv.1 <+: k ∧ ¬ k <+: kv.1 := by
      intro kv1 hkv1
      have := (List.pairwise_append.mp hpw).2.2 kv1 hkv1 (k, v) (by simp)
      exact this
    obtain ⟨t1, hadd, hinv1⟩ := inv_step t ks1 k v hinv
      (hne (k, v) (by simp)) hinc
    have hpw1 : List.Pairwise (fun a b => ¬ a.1 <+: b.1 ∧ ¬ b.1 <+: a.1)
        ((ks1 ++ [(k, v)]) ++ rest) := by
      rw [List.append_assoc, List.singleton_append]
      exact hpw
    obtain ⟨t', hall, hinv'⟩ := ih t1 (ks1 ++ [(k, v)]) hinv1 hpw1
      (fun kv2 h2 => hne kv2 (by simp [h2]))
    refine ⟨t', ?_, ?_⟩
    · show addAll t ((k, v) :: rest) = .ok t'
      rw [addAll, hadd]
      exact hall
    · rw [List.append_assoc, List.singleton_append] at hinv'
      exact hinv'

theorem drop_cons_facts (full : List Nat) (i L : Nat) (rest : List Nat)
    (hsuf : full.drop i = L :: rest) :
    i < full.length ∧ full.getD i 0 = L ∧ full.drop (i + 1) = rest := by
  have hlen := congrArg List.length hsuf
  rw [List.length_drop] at hlen
  simp only [List.length_cons] at hlen
  have hilt : i < full.length := by omega
  refine ⟨hilt, ?_, ?_⟩
  · have h0 : full[i]? = some L := by
      have := List.getElem?_drop full i 0
      rw [hsuf] at this
      simpa using this.symm
    rw [List.getD_eq_getElem?_getD, h0]
    rfl
  · have h1 : full.drop (i + 1) = (full.drop i).drop 1 := by
      rw [List.drop_drop]
    rw [h1, hsuf]
    rfl

theorem keysFrom_mem (full : List Nat) : ∀ (suf : List Nat) (i : Nat),
    full.drop i = suf → ∀ k v,
    ((k, v) ∈ keysFrom full i suf ↔
      (i ≤ v ∧ v < full.length ∧ full.getD v 0 ≠ 0 ∧
        k = natBits (codeOf full v) (full.getD v 0))) := by
  intro suf
  induction suf with
  | nil =>
    intro i hsuf k v
    have hlen := congrArg List.length hsuf
    rw [List.length_drop] at hlen
    simp only [List.length_nil] at hlen
    rw [keysFrom]
    simp only [List.not_mem_nil, false_iff]
    intro h
    omega
  | cons L rest ih =>
    intro i hsuf k v
    obtain ⟨hilt, hget, hdrop⟩ := drop_cons_facts full i L rest hsuf
    rw [keysFrom]
    by_cases hL : L = 0
    · rw [if_pos hL]
      rw [ih (i + 1) hdrop k v]
      constructor
      · intro ⟨h1, h2, h3, h4⟩
        exact ⟨by omega, h2, h3, h4⟩
      · intro ⟨h1, h2, h3, h4⟩
        have hvne : v ≠ i := by
          intro h
          subst h
          rw [hget, hL] at h3
          exact h3 rfl
        exact ⟨by omega, h2, h3, h4⟩
    · rw [if_neg hL]
      rw [List.mem_cons]
      constructor
      · intro h
        rcases h with h | h
        · have hk : k = natBits (codeOf full i) L ∧ v = i := by
            constructor
            · exact congrArg Prod.fst h
            · exact congrArg Prod.snd h
          obtain ⟨hk1, hk2⟩ := hk
          subst hk2
          refine ⟨le_rfl, hilt, by rw [hget]; exact hL, ?_⟩
          rw [hk1, hget]
        · have := (ih (i + 1) hdrop k v).mp h
          exact ⟨by omega, this.2.1, this.2.2.1, this.2.2.2⟩
      · intro ⟨h1, h2, h3, h4⟩
        by_cases hvi : v = i
        · subst hvi
          left
          rw [h4, hget]
        · right
          exact (ih (i + 1) hdrop k v).mpr ⟨by omega, h2, h3, h4⟩

theorem keys_pairwise (lengths : List Nat) (maxB : Nat)
    (hmax : lengths.max? = some maxB)
    (hkraft : kraftPartial (cnt lengths) maxB (maxB + 1) = 2 ^ maxB) :
    ∀ (suf : List Nat) (i : Nat), lengths.drop i = suf →
    List.Pairwise (fun a b => ¬ a.1 <+: b.1 ∧ ¬ b.1 <+: a.1)
      (keysFrom lengths i suf) := by
  intro suf
  induction suf with
  | nil =>
    intro i _
    rw [keysFrom]
    exact List.Pairwise.nil
  | cons L rest ih =>
    intro i hsuf
    obtain ⟨hilt, hget, hdrop⟩ := drop_cons_facts lengths i L rest hsuf
    rw [keysFrom]
    by_cases hL : L = 0
    · rw [if_pos hL]
      exact ih (i + 1) hdrop
    · rw [if_neg hL]
      refine List.Pairwise.cons ?_ (ih (i + 1) hdrop)
      intro b hb
      have hbm := (keysFrom_mem lengths rest (i + 1) hdrop b.1 b.2).mp (by simpa using hb)
      obtain ⟨hb1, hb2, hb3, hb4⟩ := hbm
      have hine : lengths.getD i 0 ≠ 0 := by rw [hget]; exact hL
      constructor
      · intro hpref
        have : i = b.2 := by
          apply code_inj lengths maxB hmax hkraft i b.2 hilt hb2 hine hb3
          rw [hget, ← hb4]
          exact hpref
        omega
      · intro hpref
        have : b.2 = i := by
          apply code_inj lengths maxB hmax hkraft b.2 i hb2 hilt hb3 hine
          rw [hget, ← hb4]
          exact hpref
        omega

theorem keys_ne_nil (full : List Nat) (suf : List Nat) (i : Nat)
    (hsuf : full.drop i = suf) :
    ∀ kv ∈ keysFrom full i suf, kv.1 ≠ [] := by
  intro kv hkv
  obtain ⟨k, v⟩ := kv
  have := (keysFrom_mem full suf i hsuf k v).mp hkv
  obtain ⟨_, _, h3, h4⟩ := this
  show k ≠ []
  intro h
  have := congrArg List.length h
  rw [h4, natBits_length] at this
  simp only [List.length_nil] at this
  exact h3 this

theorem getD_set_self (cs : List Nat) (i x : Nat) (h : i < cs.length) :
    (cs.set i x).getD i 0 = x := by
  rw [List.getD_eq_getElem?_getD, List.getElem?_set]
  simp [h]

theorem getD_set_ne (cs : List Nat) (i j x : Nat) (h : i ≠ j) :
    (cs.set i x).getD j 0 = cs.getD j 0 := by
  rw [List.getD_eq_getElem?_getD, List.getElem?_set, if_neg h,
    ← List.getD_eq_getElem?_getD]

theorem getD_replicate_zero (n i : Nat) : (List.replicate n (0 : Nat)).getD i 0 = 0 := by
  rw [List.getD_eq_getElem?_getD, List.getElem?_replicate]
  split <;> rfl

theorem buildCounts_spec : ∀ (ls cs : List Nat), (∀ l ∈ ls, l < 16) →
    cs.length = 16 →
    ∃ cs', buildCounts cs ls = .ok cs' ∧ cs'.length = 16 ∧
      ∀ j, cs'.getD j 0 = cs.getD j 0 + ls.count j := by
  intro ls
  induction ls with
  | nil =>
    intro cs _ hlen
    exact ⟨cs, rfl, hlen, by simp⟩
  | cons l rest ih =>
    intro cs hlt hlen
    have hl : l < 16 := hlt l (by simp)
    have hsl : (cs.set l (cs.getD l 0 + 1)).length = 16 := by
      rw [List.length_set]
      exact hlen
    obtain ⟨cs', hbc, hlen', hget⟩ := ih (cs.set l (cs.getD l 0 + 1))
      (fun x hx => hlt x (by simp [hx])) hsl
    refine ⟨cs', ?_, hlen', ?_⟩
    · rw [buildCounts, bumpCount, if_pos hl]
      exact hbc
    · intro j
      rw [hget j, List.count_cons]
      by_cases hj : j = l
      · subst hj
        rw [getD_set_self cs j _ (by omega)]
        simp
        omega
      · rw [getD_set_ne cs l j _ (fun h => hj h.symm)]
        have : (l == j) = false := by
          simp
          exact fun h => hj h.symm
        rw [this]
        simp

theorem buildNC_aux (counts : List Nat) (c : Nat → Nat)
    (hcnt : ∀ j, counts.getD j 0 = c j) :
    ∀ (n s : Nat) (nc : List Nat), 2 ≤ s → s + n ≤ 16 → nc.length = 16 →
    (∀ L, L < s → nc.getD L 0 = ncRec c L) →
    (∀ L, s ≤ L → nc.getD L 0 = 0) →
    ((List.range' s n).foldl (ncStep counts) nc).length = 16 ∧
    (∀ L, L < s + n →
      ((List.range' s n).foldl (ncStep counts) nc).getD L 0 = ncRec c L) := by
  intro n
  induction n with
  | zero =>
    intro s nc _ _ hlen hlow _
    refine ⟨hlen, ?_⟩
    intro L hL
    exact hlow L (by omega)
  | succ n ih =>
    intro s nc hs h16 hlen hlow hhigh
    rw [List.range'_succ]
    have hstep : ncStep counts nc s = nc.set s (ncRec c s) := by
      unfold ncStep
      congr 1
      rw [hlow (s - 1) (by omega), hcnt (s - 1)]
      obtain ⟨s0, rfl⟩ : ∃ s0, s = s0 + 2 := ⟨s - 2, by omega⟩
      show (ncRec c (s0 + 1) + c (s0 + 1)) * 2 = _
      rfl
    rw [show (s :: List.range' (s + 1) n).foldl (ncStep counts) nc
      = (List.range' (s + 1) n).foldl (ncStep counts) (ncStep counts nc s) from rfl]
    rw [hstep]
    have hres := ih (s + 1) (nc.set s (ncRec c s)) (by omega) (by omega)
      (by rw [List.length_set]; exact hlen) ?_ ?_
    · refine ⟨hres.1, ?_⟩
      intro L hL
      exact hres.2 L (by omega)
    · intro L hL
      by_cases hLs : L = s
      · subst hLs
        exact getD_set_self nc L _ (by omega)
      · rw [getD_set_ne nc s L _ (fun h => hLs h.symm)]
        exact hlow L (by omega)
    · intro L hL
      rw [getD_set_ne nc s L _ (by omega)]
      exact hhigh L (by omega)

theorem buildNextCode_spec (counts : List Nat) (maxB : Nat) (c : Nat → Nat)
    (hcnt : ∀ j, counts.getD j 0 = c j) (hm15 : maxB ≤ 15) (hm1 : 1 ≤ maxB) :
    (buildNextCode counts maxB).length = 16 ∧
    ∀ L, L ≤ maxB → (buildNextCode counts maxB).getD L 0 = ncRec c L := by
  unfold buildNextCode
  have hres := buildNC_aux counts c hcnt (maxB - 1) 2 (List.replicate 16 0)
    le_rfl (by omega) (by simp) ?_ ?_
  · refine ⟨hres.1, ?_⟩
    intro L hL
    exact hres.2 L (by omega)
  · intro L hL
    rw [getD_replicate_zero]
    match L, hL with
    | 0, _ => rfl
    | 1, _ => rfl
  · intro L _
    exact getD_replicate_zero 16 L

theorem getD_mem (l : List Nat) (i : Nat) (h : i < l.length) : l.getD i 0 ∈ l := by
  rw [List.getD_eq_getElem l 0 h]
  exact List.getElem_mem h

theorem buildFold_eq (full : List Nat) (maxB : Nat)
    (hlt : ∀ l ∈ full, l < 16)
    (hmax : full.max? = some maxB)
    (hkraft : kraftPartial (cnt full) maxB (maxB + 1) = 2 ^ maxB) :
    ∀ (suf : List Nat) (i : Nat) (nc : List Nat) (t : Node),
      full.drop i = suf → nc.length = 16 →
      (∀ L, 1 ≤ L → L ≤ maxB →
        nc.getD L 0 = ncRec (cnt full) L + (full.take i).count L) →
      buildFold (List.enumFrom i suf) nc t = addAll t (keysFrom full i suf) := by
  intro suf
  induction suf with
  | nil => intro i nc t _ _ _; rfl
  | cons L rest ih =>
    intro i nc t hsuf hlen hinv
    obtain ⟨hilt, hget, hdrop⟩ := drop_cons_facts full i L rest hsuf
    have hL16 : L < 16 := by
      rw [← hget]
      exact hlt _ (getD_mem full i hilt)
    have htake : full.take (i + 1) = full.take i ++ [L] := by
      rw [List.take_succ, List.getElem?_eq_getElem hilt]
      rw [show full[i] = L by rw [← List.getD_eq_getElem full 0 hilt]; exact hget]
      rfl
    rw [show List.enumFrom i (L :: rest) = (i, L) :: List.enumFrom (i + 1) rest from rfl]
    rw [keysFrom]
    by_cases hL : L = 0
    · rw [if_pos hL]
      rw [show buildFold ((i, L) :: List.enumFrom (i + 1) rest) nc t
        = buildFold (List.enumFrom (i + 1) rest) nc t by
          rw [buildFold.eq_def]
          simp [hL]]
      apply ih (i + 1) nc t hdrop hlen
      intro L' h1 h2
      rw [hinv L' h1 h2, htake, List.count_append]
      have : (L == L') = false := by
        simp [hL]
        omega
      simp [List.count_singleton, this]
    · rw [if_neg hL]
      have hLm : L ≤ maxB := by
        rw [← hget]
        exact len_le_maxB full maxB hmax i hilt
      have hcode : nc.getD L 0 = codeOf full i := by
        rw [hinv L (by omega) hLm]
        unfold codeOf
        rw [hget]
      have hclt : codeOf full i < 2 ^ L := by
        have := codeOf_lt full maxB hmax hkraft i hilt (by rw [hget]; exact hL)
        rw [hget] at this
        exact this
      have hfit : ¬ 2 ^ L ≤ nc.getD L 0 := by
        rw [hcode]
        omega
      rw [show buildFold ((i, L) :: List.enumFrom (i + 1) rest) nc t
        = (match trieAdd t (nc.getD L 0) L i with
          | .error e => .error e
          | .ok t1 => buildFold (List.enumFrom (i + 1) rest)
              (nc.set L (nc.getD L 0 + 1)) t1) by
          rw [buildFold.eq_def]
          simp only [hL, if_false, hfit]]
      rw [show addAll t ((natBits (codeOf full i) L, i) :: keysFrom full (i + 1) rest)
        = (match t.addPath (natBits (codeOf full i) L) i with
          | .error e => .error e
          | .ok t1 => addAll t1 (keysFrom full (i + 1) rest)) by
          rw [addAll.eq_def]]
      rw [hcode]
      unfold trieAdd
      cases hadd : t.addPath (natBits (codeOf full i) L) i with
      | error e => rfl
      | ok t1 =>
        apply ih (i + 1) _ t1 hdrop (by rw [List.length_set]; exact hlen)
        intro L' h1 h2
        by_cases hLL : L' = L
        · subst hLL
          rw [getD_set_self nc L' _ (by omega)]
          unfold codeOf
          rw [hget, htake, List.count_append]
          simp [List.count_singleton]
          omega
        · rw [getD_set_ne nc L L' _ (fun h => hLL h.symm), hinv L' h1 h2,
            htake, List.count_append]
          have : (L == L') = false := by
            simp
            exact fun h => hLL h.symm
          simp [List.count_singleton, this]

theorem buildTree_eq_addAll (lengths : List Nat) (maxB : Nat)
    (hlt : ∀ l ∈ lengths, l < 16)
    (hmax : lengths.max? = some maxB)
    (hkraft : kraftPartial (cnt lengths) maxB (maxB + 1) = 2 ^ maxB) :
    buildTree lengths = addAll (Node.mk none none none) (keysFrom lengths 0 lengths) := by
  have hm15 : maxB ≤ 15 := by
    have hmem := (List.max?_eq_some_iff'.mp hmax).1
    have := hlt maxB hmem
    omega
  have hm1 : 1 ≤ maxB := maxB_pos (cnt lengths) maxB hkraft
  obtain ⟨cs', hbc, hlen', hget⟩ :=
    buildCounts_spec lengths (List.replicate 16 0) hlt (by simp)
  have hcnt : ∀ j, cs'.getD j 0 = cnt lengths j := by
    intro j
    rw [hget j, getD_replicate_zero, Nat.zero_add]
    rfl
  obtain ⟨hnclen, hncget⟩ := buildNextCode_spec cs' maxB (cnt lengths) hcnt hm15 hm1
  unfold buildTree
  rw [hmax]
  show (match buildCounts (List.replicate 16 0) lengths with
    | .error e => .error e
    | .ok counts =>
      buildFold lengths.enum (buildNextCode counts maxB) (Node.mk none none none))
    = addAll (Node.mk none none none) (keysFrom lengths 0 lengths)
  rw [hbc]
  show buildFold lengths.enum (buildNextCode cs' maxB) (Node.mk none none none)
    = addAll (Node.mk none none none) (keysFrom lengths 0 lengths)
  rw [show lengths.enum = List.enumFrom 0 lengths from rfl]
  apply buildFold_eq lengths maxB hlt hmax hkraft lengths 0 _ _ rfl hnclen
  intro L h1 h2
  rw [hncget L h2]
  simp

theorem buildTree_inv (lengths : List Nat) (maxB : Nat)
    (hlt : ∀ l ∈ lengths, l < 16)
    (hmax : lengths.max? = some maxB)
    (hkraft : kraftPartial (cnt lengths) maxB (maxB + 1) = 2 ^ maxB) :
    ∃ t, buildTree lengths = .ok t ∧ Inv t (keysFrom lengths 0 lengths) := by
  rw [buildTree_eq_addAll lengths maxB hlt hmax hkraft]
  have hpw := keys_pairwise lengths maxB hmax hkraft lengths 0 rfl
  have hne := keys_ne_nil lengths lengths 0 rfl
  obtain ⟨t, hall, hinv⟩ := addAll_inv (keysFrom lengths 0 lengths)
    (Node.mk none none none) [] Inv_nil (by simpa using hpw) hne
  exact ⟨t, hall, by simpa using hinv⟩

/-- C7 (amended): for every code-length vector whose lengths fit the 16-slot
histogram and whose Kraft sum meets 2 ^ maxBits exactly, build_tree succeeds
and the tree accepts every assigned canonical code: cursor descent over the
code's MSB-first bits ends at a leaf holding the symbol.  Every other bit
sequence of length at most the maximum code length either strictly extends an
assigned code, and descent fails with an error (it continues from a childless
leaf), or is a strict prefix of an assigned code, and descent ends without
error at an interior node holding no symbol. -/
theorem c7_theorem (lengths : List Nat) (maxB : Nat)
    (hlt : ∀ l ∈ lengths, l < 16)
    (hmax : lengths.max? = some maxB)
    (hkraft : kraftPartial (cnt lengths) maxB (maxB + 1) = 2 ^ maxB) :
    ∃ t, buildTree lengths = .ok t ∧
      (∀ i, i < lengths.length → lengths.getD i 0 ≠ 0 →
        ∃ n, t.runPath (natBits (codeOf lengths i) (lengths.getD i 0)) = .ok n ∧
          n.value = some i) ∧
      (∀ bs : List Bool, bs.length ≤ maxB →
        (∀ i, i < lengths.length → lengths.getD i 0 ≠ 0 →
          bs ≠ natBits (codeOf lengths i) (lengths.getD i 0)) →
        ((∃ i, i < lengths.length ∧ lengths.getD i 0 ≠ 0 ∧
            natBits (codeOf lengths i) (lengths.getD i 0) <+: bs ∧
            ∃ e, t.runPath bs = .error e) ∨
          (∃ i, i < lengths.length ∧ lengths.getD i 0 ≠ 0 ∧
            bs <+: natBits (codeOf lengths i) (lengths.getD i 0) ∧
            ∃ n, t.runPath bs = .ok n ∧ n.value = none))) := by
  obtain ⟨t, hbt, hinv⟩ := buildTree_inv lengths maxB hlt hmax hkraft
  refine ⟨t, hbt, ?_, ?_⟩
  · intro i hi hne0
    have hmem : (natBits (codeOf lengths i) (lengths.getD i 0), i) ∈
        keysFrom lengths 0 lengths :=
      (keysFrom_mem lengths lengths 0 rfl _ i).mpr ⟨by omega, hi, hne0, rfl⟩
    obtain ⟨n, hrun, hval, _, _⟩ := hinv.1 _ hmem
    exact ⟨n, hrun, hval⟩
  · intro bs hblen hnota
    obtain ⟨i, hi, hne0, hcomp⟩ := code_cover lengths maxB hmax hkraft bs hblen
    rcases hcomp with hpre | hpre
    · left
      refine ⟨i, hi, hne0, hpre, ?_⟩
      obtain ⟨tl, htl⟩ := hpre
      match tl, htl with
      | [], htl =>
        rw [List.append_nil] at htl
        exact absurd htl.symm (hnota i hi hne0)
      | b :: rest2, htl =>
        have hmem : (natBits (codeOf lengths i) (lengths.getD i 0), i) ∈
            keysFrom lengths 0 lengths :=
          (keysFrom_mem lengths lengths 0 rfl _ i).mpr ⟨by omega, hi, hne0, rfl⟩
        obtain ⟨n, hrun, _, hcf, hct⟩ := hinv.1 _ hmem
        obtain ⟨e, he⟩ := runPath_leaf_ext t _ n hrun hcf hct b rest2
        rw [htl] at he
        exact ⟨e, he⟩
    · right
      refine ⟨i, hi, hne0, hpre, ?_⟩
      have hmem : (natBits (codeOf lengths i) (lengths.getD i 0), i) ∈
          keysFrom lengths 0 lengths :=
        (keysFrom_mem lengths lengths 0 rfl _ i).mpr ⟨by omega, hi, hne0, rfl⟩
      obtain ⟨nk, hrunk, _, _, _⟩ := hinv.1 _ hmem
      obtain ⟨tl, htl⟩ := hpre
      have hsplit : t.runPath (bs ++ tl) = .ok nk := by
        rw [htl]
        exact hrunk
      rw [runPath_append] at hsplit
      cases hp : t.runPath bs with
      | error e =>
        rw [hp] at hsplit
        simp at hsplit
      | ok n =>
        refine ⟨n, rfl, ?_⟩
        cases hv : n.value with
        | none => rfl
        | some w =>
          exfalso
          have hmem2 := hinv.2.1 bs n w hp hv
          have hfacts := (keysFrom_mem lengths lengths 0 rfl bs w).mp hmem2
          exact hnota w hfacts.2.1 hfacts.2.2.1 hfacts.2.2.2

theorem c7tree_spec : buildTree [1, 2, 2] = .ok c7tree := rfl

theorem c7tree_run : ∃ n, c7tree.runPath [true] = .ok n ∧ n.value = none := by
  refine ⟨Node.mk none (some (Node.mk (some 1) none none))
    (some (Node.mk (some 2) none none)), ?_, rfl⟩
  rfl

/-- C7 counterexample to the claim as stated: the complete length vector
[1, 2, 2] (codes 0, 10, 11) builds successfully, and the single bit 1 -- a
bit sequence of length at most the maximum code length that is not an
assigned code -- is NOT rejected with an error: descent ends at an interior
node with no error, because it is a strict prefix of the codes 10 and 11. -/
theorem c7_counterexample :
    ¬ ∀ (lengths : List Nat) (maxB : Nat) (t : Node),
        (∀ l ∈ lengths, l < 16) → lengths.max? = some maxB →
        kraftPartial (cnt lengths) maxB (maxB + 1) = 2 ^ maxB →
        buildTree lengths = .ok t →
        ∀ bs : List Bool, bs.length ≤ maxB →
          (∀ i, i < lengths.length → lengths.getD i 0 ≠ 0 →
            bs ≠ natBits (codeOf lengths i) (lengths.getD i 0)) →
          ∃ e, t.runPath bs = .error e := by
  intro h
  obtain ⟨e, he⟩ := h [1, 2, 2] 2 c7tree (by decide) (by decide) (by decide)
    c7tree_spec [true] (by decide) (by decide)
  obtain ⟨n, hok, _⟩ := c7tree_run
  rw [hok] at he
  exact absurd he (by simp)

/-- C7 witness: the amended theorem applied to the complete vector [1, 2, 2]:
its Kraft sum is 2 ^ 2, build_tree succeeds, and the code of symbol 0 (the
single bit 0) descends to a leaf holding 0. -/
theorem c7_witness :
    (∀ l ∈ [1, 2, 2], l < 16) ∧ [1, 2, 2].max? = some 2 ∧
    kraftPartial (cnt [1, 2, 2]) 2 3 = 2 ^ 2 ∧
    ∃ t, buildTree [1, 2, 2] = .ok t ∧
      ∃ n, t.runPath (natBits (codeOf [1, 2, 2] 0) 1) = .ok n ∧ n.value = some 0 := by
  refine ⟨by decide, by decide, by decide, ?_⟩
  obtain ⟨t, hbt, hacc, _⟩ := c7_theorem [1, 2, 2] 2 (by decide) (by decide) (by decide)
  obtain ⟨n, hrun, hval⟩ := hacc 0 (by decide) (by decide)
  exact ⟨t, hbt, n, hrun, hval⟩

end MyGzip
